import Mathlib

/-!
Verification of the catalog/snapshot subsystem of aws-object-search.

Python strings are modelled as `List Char` (sequences of code points), Python
`datetime` values as a six-field structure, fallible Python code (code that can
raise) as `Option`/`Except` returning functions.  Every definition is a direct
shallow embedding of the corresponding function in
`src/aws_object_search/{catalog,entry,s3_wrapper,tantivy_wrapper}.py`, except
for the small pieces of Python/C standard library behaviour those functions
lean on (`csv` reading/writing, `str.endswith`, `datetime.strptime`,
`pathlib` glob/stem), which are modelled per their documented semantics.
-/

/-- Character-list view of a string literal, used to state concrete examples. -/
def s2c (s : String) : List Char := s.data

/-! ## File-ending filter (`entry.filter_by_file_endings`) -/

/-- Embedding of `entry.filter_by_file_endings`.  `none` models Python `None`
(no filtering); the loop `for ending in endings: if uri.endswith(ending):
return True` followed by `return False` is the existential over the list.
`str.endswith` is exact trailing-character (suffix) match. -/
def filter_by_file_endings (uri : List Char) (endings : Option (List (List Char))) : Bool :=
  match endings with
  | none => true
  | some es => es.any (fun e => e.isSuffixOf uri)

/-! ## Scan pipeline argument passing (`entry.aos_scan` / `s3_wrapper.run_s3_object_scan`) -/

/-- Exceptions raised by the modelled Python code. -/
inductive PyErr where
  | typeError (msg : String)
  | valueError (msg : String)
  | indexError
  | assertionError
  deriving DecidableEq, Repr

/-- Runtime class of a value passed to `run_s3_object_scan`: Python `str`,
`pathlib.Path`, or `None`. -/
inductive PyArg where
  | argStr (s : List Char)
  | argPath (p : List Char)
  | argNone
  deriving DecidableEq, Repr

/-- Embedding of `isinstance(x, (str, type(None)))`. -/
def isStrOrNone : PyArg → Bool
  | .argStr _ => true
  | .argNone => true
  | .argPath _ => false

/-- Embedding of `isinstance(x, (str, Path, type(None)))`. -/
def isStrPathOrNone : PyArg → Bool
  | .argStr _ => true
  | .argPath _ => true
  | .argNone => true

/-- Embedding of `s3_wrapper.run_s3_object_scan`.  The two leading `isinstance`
checks raise `TypeError` before any listing or writing happens; the succeeding
path (scan every bucket, write one snapshot per bucket) performs external I/O
and is abstracted as returning the list of buckets the external listing
service reports, in scan order. -/
def run_s3_object_scan (bp pd : PyArg) (buckets : List (List Char)) :
    Except PyErr (List (List Char)) :=
  if ¬ isStrOrNone bp then
    .error (.typeError "Bucket prefix must be a string or None")
  else if ¬ isStrPathOrNone pd then
    .error (.typeError "Parent directory must be a string or Path or None")
  else
    .ok buckets

/-- Embedding of the call made by `entry.aos_scan` when scanning is enabled:
`run_s3_object_scan(args.output_root, args.bucket_prefix)` passes the `Path`
valued output root as the first positional parameter and the
optional-string bucket prefix as the second. -/
def aos_scan_scan_step (output_root : List Char) (bp : Option (List Char))
    (buckets : List (List Char)) : Except PyErr (List (List Char)) :=
  run_s3_object_scan (.argPath output_root)
    (match bp with
     | some s => .argStr s
     | none => .argNone)
    buckets

/-! ## Datetime values (`datetime.datetime` as used by the catalog) -/

/-- Naive `datetime.datetime` value.  Only the six components produced by
`strptime("%Y%m%d-%H%M%S")` occur in the program (microseconds are 0). -/
structure PyDateTime where
  year : Nat
  month : Nat
  day : Nat
  hour : Nat
  minute : Nat
  second : Nat
  deriving DecidableEq, Repr

/-- Order-embedding key for `PyDateTime`.  Python compares naive datetimes
lexicographically by components; for values validated by `strptime`
(month, day, hour, minute, second all below 100) that order coincides with
the numeric order of this fixed-width decimal encoding. -/
def PyDateTime.key (d : PyDateTime) : Nat :=
  ((((d.year * 100 + d.month) * 100 + d.day) * 100 + d.hour) * 100 + d.minute) * 100
    + d.second

/-- Gregorian leap-year test as implemented by `datetime`. -/
def isLeapYear (y : Nat) : Bool :=
  y % 4 = 0 && (y % 100 ≠ 0 || y % 400 = 0)

/-- Number of days in a month, per `datetime`. -/
def daysInMonth (y m : Nat) : Nat :=
  if m = 2 then (if isLeapYear y then 29 else 28)
  else if m = 4 ∨ m = 6 ∨ m = 9 ∨ m = 11 then 30
  else 31

/-! ## Snapshot file-name parsing (`catalog.BucketScan`) -/

/-- Value of a decimal digit character, `none` for a non-digit. -/
def digitVal (c : Char) : Option Nat :=
  if c.isDigit then some (c.toNat - 48) else none

/-- Two-digit decimal number. -/
def digit2 (a b : Char) : Option Nat :=
  match digitVal a, digitVal b with
  | some x, some y => some (10 * x + y)
  | _, _ => none

/-- Four-digit decimal number. -/
def digit4 (a b c d : Char) : Option Nat :=
  match digit2 a b, digit2 c d with
  | some x, some y => some (100 * x + y)
  | _, _ => none

/-- Embedding of `BucketScan.scan_start`: `assert name[15] == "-"` followed by
`datetime.strptime(name[:15], "%Y%m%d-%H%M%S")`.  `none` models the raised
exception (IndexError for short names, AssertionError for a missing hyphen,
ValueError for non-digits or out-of-range components; `datetime` rejects
year 0 and leap seconds). -/
def scanStart (name : List Char) : Option PyDateTime :=
  match name with
  | y1 :: y2 :: y3 :: y4 :: mo1 :: mo2 :: d1 :: d2 :: dashA :: h1 :: h2 :: mi1 :: mi2
      :: s1 :: s2 :: dashB :: _ =>
    if dashB = '-' then
      if dashA = '-' then
        match digit4 y1 y2 y3 y4, digit2 mo1 mo2, digit2 d1 d2, digit2 h1 h2,
            digit2 mi1 mi2, digit2 s1 s2 with
        | some y, some mo, some dd, some hh, some mi, some ss =>
          if 1 ≤ y ∧ 1 ≤ mo ∧ mo ≤ 12 ∧ 1 ≤ dd ∧ dd ≤ daysInMonth y mo ∧ hh ≤ 23
              ∧ mi ≤ 59 ∧ ss ≤ 59 then
            some ⟨y, mo, dd, hh, mi, ss⟩
          else none
        | _, _, _, _, _, _ => none
      else none
    else none
  | _ => none

/-- Remainder of a character list after its first hyphen (one step of
`str.split("-", ...)`); `none` when no hyphen exists. -/
def afterHyphen (cs : List Char) : Option (List Char) :=
  match cs.dropWhile (fun c => decide (c ≠ '-')) with
  | _ :: rest => some rest
  | [] => none

/-- Embedding of `BucketScan.bucket_name`:
`file_path.stem.split(".", 1)[0].split("-", 2)[2]`.  For any file name the
stem followed by a first-dot split equals taking characters up to the first
dot; the `[2]` indexing raises IndexError (`none`) when fewer than two
hyphens remain. -/
def bucketName (name : List Char) : Option (List Char) :=
  match afterHyphen (name.takeWhile (fun c => decide (c ≠ '.'))) with
  | some r1 => afterHyphen r1
  | none => none

/-- Scan descriptor with its parsed attributes.  `file_name` is the file's
name inside `catalog_root` (all snapshot files of one catalog live in the
same directory, so path identity is name identity). -/
structure BucketScan where
  file_name : List Char
  bucket_name : List Char
  scan_start : PyDateTime
  deriving DecidableEq, Repr

/-- Parse the two lazy properties of one glob-matched file.  `none` models the
exception escaping from whichever property is touched first; consumers of
`all_bucket_scans` in the source (`current_bucket_scans`,
`archive_old_scans`) access both properties of every matched file before
returning, so one unparseable matched file makes the whole call raise. -/
def parseBucketScan (name : List Char) : Option BucketScan :=
  match bucketName name, scanStart name with
  | some b, some d => some ⟨name, b, d⟩
  | _, _ => none

/-! ## Directory scanning (`S3ObjectCatalog.all_bucket_scans`) -/

/-- Glob match for `????????-??????-*{suffixPat}`: eight arbitrary characters,
a hyphen, six arbitrary characters, a hyphen, an arbitrary (possibly empty)
tail, then the literal suffix. -/
def matchesScanPattern (suffixPat name : List Char) : Bool :=
  decide (16 + suffixPat.length ≤ name.length) &&
  decide (name[8]? = some '-') &&
  decide (name[15]? = some '-') &&
  suffixPat.isSuffixOf name

/-- Literal tail of the first glob pattern in `all_bucket_scans`. -/
def patternTsv : List Char := s2c ".tsv"

/-- Literal tail of the second glob pattern in `all_bucket_scans`. -/
def patternTsvGz : List Char := s2c ".tsv.gz"

/-- File names yielded by the two glob passes of `all_bucket_scans`, `.tsv`
files before `.tsv.gz` files, each pass in directory iteration order. -/
def matchedNames (files : List (List Char)) : List (List Char) :=
  files.filter (matchesScanPattern patternTsv) ++
    files.filter (matchesScanPattern patternTsvGz)

/-- Parse every name, failing if any single parse fails. -/
def parseAll : List (List Char) → Option (List BucketScan)
  | [] => some []
  | n :: ns =>
    match parseBucketScan n, parseAll ns with
    | some b, some bs => some (b :: bs)
    | _, _ => none

/-- Embedding of `S3ObjectCatalog.all_bucket_scans` together with the parse of
each yielded scan's attributes: the error case models the
AssertionError/ValueError/IndexError that escapes the consuming loop at the
first unparseable matched file. -/
def all_bucket_scans (files : List (List Char)) : Except PyErr (List BucketScan) :=
  match parseAll (matchedNames files) with
  | some l => .ok l
  | none => .error (.valueError "unparseable scan file name")

/-! ## Current view (`S3ObjectCatalog.current_bucket_scans`) -/

/-- One step of maintaining the `most_recent_scans` dict: dictionaries keep
insertion order; an existing bucket entry is replaced in place only when the
new candidate has strictly greater `scan_start`. -/
def insertWinner : List BucketScan → BucketScan → List BucketScan
  | [], b => [b]
  | w :: ws, b =>
    if w.bucket_name = b.bucket_name then
      (if w.scan_start.key < b.scan_start.key then b else w) :: ws
    else
      w :: insertWinner ws b

/-- Values of the `most_recent_scans` dict after the loop, in insertion
order. -/
def winners (scans : List BucketScan) : List BucketScan :=
  scans.foldl insertWinner []

/-- Boolean lexicographic comparison of character lists, matching Python
string comparison (by code point). -/
def strLtB : List Char → List Char → Bool
  | [], [] => false
  | [], _ :: _ => true
  | _ :: _, [] => false
  | a :: as, b :: bs => if a = b then strLtB as bs else decide (a.toNat < b.toNat)

/-- Sort key comparison of `sorted(..., key=attrgetter("scan_start",
"bucket_name"))`: tuple order on (datetime, string). -/
def scanKeyLeB (a b : BucketScan) : Bool :=
  decide (a.scan_start.key < b.scan_start.key) ||
  (decide (a.scan_start.key = b.scan_start.key) &&
    (strLtB a.bucket_name b.bucket_name || decide (a.bucket_name = b.bucket_name)))

/-- Propositional form of the sort key order. -/
def ScanKeyLE (a b : BucketScan) : Prop := scanKeyLeB a b = true

instance : DecidableRel ScanKeyLE := fun a b => decEq (scanKeyLeB a b) true

/-- Sorting of the dict values.  Python's `sorted` is a stable comparison
sort; the values sorted here always have pairwise distinct keys (one entry
per bucket name), so any comparison sort computes the same list. -/
def sortScans (l : List BucketScan) : List BucketScan :=
  l.insertionSort ScanKeyLE

/-- Embedding of `S3ObjectCatalog.current_bucket_scans`. -/
def current_bucket_scans (files : List (List Char)) : Except PyErr (List BucketScan) :=
  match all_bucket_scans files with
  | .error e => .error e
  | .ok scans => .ok (sortScans (winners scans))

/-- Totality of the sort key order, needed for sortedness of the result of
`sorted(...)`. -/
instance : IsTotal BucketScan ScanKeyLE where
  total := by
    have hinj : ∀ {a b : Char}, a.toNat = b.toNat → a = b :=
      fun h => Char.ext (UInt32.toNat.inj h)
    have hstr : ∀ a b : List Char, strLtB a b = true ∨ a = b ∨ strLtB b a = true := by
      intro a
      induction a with
      | nil =>
        intro b
        cases b with
        | nil => exact Or.inr (Or.inl rfl)
        | cons y ys => exact Or.inl rfl
      | cons x xs ih =>
        intro b
        cases b with
        | nil => exact Or.inr (Or.inr rfl)
        | cons y ys =>
          by_cases hxy : x = y
          · subst hxy
            rcases ih ys with h | h | h
            · left; simpa [strLtB] using h
            · right; left; rw [h]
            · right; right; simpa [strLtB] using h
          · rcases Nat.lt_trichotomy x.toNat y.toNat with h | h | h
            · left; simp only [strLtB, if_neg hxy]; exact decide_eq_true h
            · exact absurd (hinj h) hxy
            · right; right
              have hyx : y ≠ x := fun he => hxy he.symm
              simp only [strLtB, if_neg hyx]
              exact decide_eq_true h
    intro a b
    show scanKeyLeB a b = true ∨ scanKeyLeB b a = true
    simp only [scanKeyLeB, Bool.or_eq_true, Bool.and_eq_true, decide_eq_true_eq]
    rcases Nat.lt_trichotomy a.scan_start.key b.scan_start.key with h | h | h
    · exact Or.inl (Or.inl h)
    · rcases hstr a.bucket_name b.bucket_name with hs | hs | hs
      · exact Or.inl (Or.inr ⟨h, Or.inl hs⟩)
      · exact Or.inl (Or.inr ⟨h, Or.inr hs⟩)
      · exact Or.inr (Or.inr ⟨h.symm, Or.inl hs⟩)
    · exact Or.inr (Or.inl h)

/-- Transitivity of the sort key order. -/
instance : IsTrans BucketScan ScanKeyLE where
  trans := by
    have hstr : ∀ a b c : List Char,
        strLtB a b = true → strLtB b c = true → strLtB a c = true := by
      intro a
      induction a with
      | nil =>
        intro b c h1 h2
        cases b with
        | nil => exact absurd h1 (by simp [strLtB])
        | cons y ys =>
          cases c with
          | nil => exact absurd h2 (by simp [strLtB])
          | cons z zs => rfl
      | cons x xs ih =>
        intro b c h1 h2
        cases b with
        | nil => exact absurd h1 (by simp [strLtB])
        | cons y ys =>
          cases c with
          | nil => exact absurd h2 (by simp [strLtB])
          | cons z zs =>
            simp only [strLtB] at h1 h2 ⊢
            by_cases hxy : x = y
            · subst hxy
              rw [if_pos rfl] at h1
              by_cases hxz : x = z
              · subst hxz
                rw [if_pos rfl] at h2
                rw [if_pos rfl]
                exact ih ys zs h1 h2
              · rw [if_neg hxz] at h2
                rw [if_neg hxz]
                exact h2
            · rw [if_neg hxy] at h1
              by_cases hyz : y = z
              · subst hyz
                rw [if_neg hxy]
                exact h1
              · rw [if_neg hyz] at h2
                have hx : x.toNat < y.toNat := of_decide_eq_true h1
                have hy : y.toNat < z.toNat := of_decide_eq_true h2
                have hxz2 : x.toNat < z.toNat := Nat.lt_trans hx hy
                have hne : x ≠ z := fun he => by
                  subst he
                  exact absurd hxz2 (Nat.lt_irrefl _)
                rw [if_neg hne]
                exact decide_eq_true hxz2
    intro a b c h1 h2
    show scanKeyLeB a c = true
    have h1' : scanKeyLeB a b = true := h1
    have h2' : scanKeyLeB b c = true := h2
    simp only [scanKeyLeB, Bool.or_eq_true, Bool.and_eq_true, decide_eq_true_eq]
      at h1' h2' ⊢
    rcases h1' with h1' | ⟨h1e, h1s⟩ <;> rcases h2' with h2' | ⟨h2e, h2s⟩
    · exact Or.inl (Nat.lt_trans h1' h2')
    · exact Or.inl (h2e ▸ h1')
    · exact Or.inl (h1e ▸ h2')
    · refine Or.inr ⟨h1e.trans h2e, ?_⟩
      rcases h1s with hs1 | hs1 <;> rcases h2s with hs2 | hs2
      · exact Or.inl (hstr _ _ _ hs1 hs2)
      · exact Or.inl (hs2 ▸ hs1)
      · exact Or.inl (hs1 ▸ hs2)
      · exact Or.inr (hs1.trans hs2)

/-- No two elements share a bucket name. -/
def BucketDistinct (l : List BucketScan) : Prop :=
  List.Pairwise (fun a b => a.bucket_name ≠ b.bucket_name) l

/-- Scan `w` occurs in `processed` strictly after every same-bucket scan of
strictly smaller `scan_start` and before-or-at every same-bucket scan of
`scan_start` not exceeding its own: `w` is the first occurrence of the
per-bucket maximum. -/
def FirstMaxAt (processed : List BucketScan) (w : BucketScan) : Prop :=
  ∃ l₁ l₂, processed = l₁ ++ w :: l₂ ∧
    (∀ t ∈ l₁, t.bucket_name = w.bucket_name → t.scan_start.key < w.scan_start.key) ∧
    (∀ t ∈ l₂, t.bucket_name = w.bucket_name → t.scan_start.key ≤ w.scan_start.key)

/-- Loop invariant of the `most_recent_scans` dict fold. -/
def WinnersInv (processed acc : List BucketScan) : Prop :=
  (∀ w ∈ acc, FirstMaxAt processed w) ∧
  (∀ t ∈ processed, ∃ w ∈ acc, w.bucket_name = t.bucket_name) ∧
  BucketDistinct acc

/-- Concrete example catalog directory: two scans of bucket `bkt`, one scan
of bucket `abkt`. -/
def exFiles1 : List (List Char) :=
  [s2c "20250503-164831-bkt.tsv", s2c "20250504-164832-bkt.tsv",
   s2c "20250505-164832-abkt.tsv"]

/-- Parsed scan of the first example file. -/
def exScanA : BucketScan :=
  ⟨s2c "20250503-164831-bkt.tsv", s2c "bkt", ⟨2025, 5, 3, 16, 48, 31⟩⟩

/-- Parsed scan of the second example file. -/
def exScanB : BucketScan :=
  ⟨s2c "20250504-164832-bkt.tsv", s2c "bkt", ⟨2025, 5, 4, 16, 48, 32⟩⟩

/-- Parsed scan of the third example file. -/
def exScanC : BucketScan :=
  ⟨s2c "20250505-164832-abkt.tsv", s2c "abkt", ⟨2025, 5, 5, 16, 48, 32⟩⟩

/-- Two snapshots of the same bucket with identical `scan_start` (one plain,
one gzipped): a tie in the current-view computation. -/
def exTieFiles : List (List Char) :=
  [s2c "20250503-164831-b.tsv", s2c "20250503-164831-b.tsv.gz"]

/-- Parsed scan of the plain tie file. -/
def exTieTsv : BucketScan :=
  ⟨s2c "20250503-164831-b.tsv", s2c "b", ⟨2025, 5, 3, 16, 48, 31⟩⟩

/-- Parsed scan of the gzipped tie file. -/
def exTieGz : BucketScan :=
  ⟨s2c "20250503-164831-b.tsv.gz", s2c "b", ⟨2025, 5, 3, 16, 48, 31⟩⟩

/-- A file name matching the snapshot glob whose timestamp prefix is not
parseable. -/
def exBadName : List Char := s2c "abcdefgh-ijklmn-c.tsv"

/-- A directory holding one well-formed and one malformed matched name. -/
def exMixedFiles : List (List Char) :=
  [s2c "20250503-164831-b.tsv", exBadName]

/-! ## Archiver (`S3ObjectCatalog.archive_old_scans`) -/

/-- Combined glob predicate of `all_bucket_scans`: the file is matched by one
of the two snapshot patterns. -/
def isScanName (n : List Char) : Bool :=
  matchesScanPattern patternTsv n || matchesScanPattern patternTsvGz n

/-- Observable filesystem state of one catalog directory: the files directly
in `catalog_root`, the files inside the `archive/` tree (keyed by the
`{year}/{month}/{day}` partition and the file name), and whether the
`archive/` directory itself exists. -/
structure CatalogFS where
  rootFiles : List (List Char)
  archive : List (Nat × Nat × Nat × List Char)
  archiveDirExists : Bool
  deriving DecidableEq, Repr

/-- Archive destination of one scan: `%Y`, `%m`, `%d` of its own
`scan_start`, plus the original file name. -/
def archiveEntry (b : BucketScan) : Nat × Nat × Nat × List Char :=
  (b.scan_start.year, b.scan_start.month, b.scan_start.day, b.file_name)

/-- POSIX `rename` into the archive tree replaces an existing destination
file silently; since entries carry no content, replacement amounts to
insert-if-absent. -/
def insertArchive (e : Nat × Nat × Nat × List Char)
    (arch : List (Nat × Nat × Nat × List Char)) :
    List (Nat × Nat × Nat × List Char) :=
  if e ∈ arch then arch else arch ++ [e]

/-- One loop iteration of `archive_old_scans`: `mkdir(parents=True,
exist_ok=True)` makes the archive tree exist, then the scan file is renamed
out of `catalog_root` into its destination. -/
def moveOne (st : CatalogFS) (b : BucketScan) : CatalogFS :=
  { rootFiles := st.rootFiles.filter (fun n => decide (n ≠ b.file_name)),
    archive := insertArchive (archiveEntry b) st.archive,
    archiveDirExists := true }

/-- List `old_scans` of `archive_old_scans`: every discovered scan whose
file path is not a current-view file path. -/
def oldScansOf (current all : List BucketScan) : List BucketScan :=
  all.filter
    (fun b => decide (b.file_name ∉ current.map (fun c => c.file_name)))

/-- Embedding of `S3ObjectCatalog.archive_old_scans`: compute the current
view, collect every discovered scan whose path is not a current-view path,
return untouched when there are none (the archive directory is not
created), otherwise move each old scan in iteration order. -/
def archive_old_scans (st : CatalogFS) : Except PyErr CatalogFS :=
  match current_bucket_scans st.rootFiles, all_bucket_scans st.rootFiles with
  | .ok current, .ok all =>
    if (oldScansOf current all).isEmpty then .ok st
    else .ok ((oldScansOf current all).foldl moveOne st)
  | .error e, _ => .error e
  | _, .error e => .error e

/-- Concrete two-file archiver example: an old and a current scan of bucket
`b`, empty archive. -/
def exArchSt : CatalogFS :=
  ⟨[s2c "20250503-164831-b.tsv", s2c "20250504-164832-b.tsv"], [], false⟩

/-- State of the archiver example after archiving. -/
def exArchSt2 : CatalogFS :=
  ⟨[s2c "20250504-164832-b.tsv"], [(2025, 5, 3, s2c "20250503-164831-b.tsv")], true⟩

/-- Parsed old scan of the archiver example. -/
def exArchOld : BucketScan :=
  ⟨s2c "20250503-164831-b.tsv", s2c "b", ⟨2025, 5, 3, 16, 48, 31⟩⟩

/-- Parsed current scan of the archiver example. -/
def exArchCur : BucketScan :=
  ⟨s2c "20250504-164832-b.tsv", s2c "b", ⟨2025, 5, 4, 16, 48, 32⟩⟩

/-! ## TSV snapshot files: writing (`output_s3_objects_to_tsv`) and reading
(`BucketScan.contents`).  The `csv` module layer (DictWriter/DictReader with
tab delimiter, QUOTE_MINIMAL, quote character `"`) is modelled at character
level; gzip transport is a transparent byte-level round trip selected by the
file suffix and is elided. -/

/-- Field characters that force quoting under QUOTE_MINIMAL: the delimiter,
the quote character, and the line-terminator characters. -/
def needsQuoting (s : List Char) : Bool :=
  s.any (fun c => c = '\t' || c = '"' || c = '\r' || c = '\n')

/-- Double every quote character, as the csv writer does inside quoted
fields. -/
def escapeQuotes : List Char → List Char
  | [] => []
  | c :: rest =>
    if c = '"' then '"' :: '"' :: escapeQuotes rest else c :: escapeQuotes rest

/-- Encoding of one field by the csv writer (QUOTE_MINIMAL). -/
def encodeField (s : List Char) : List Char :=
  if needsQuoting s then '"' :: (escapeQuotes s ++ ['"']) else s

/-- Encoding of one row: tab-separated encoded fields, CRLF terminated (the
csv default line terminator). -/
def encodeRow (fields : List (List Char)) : List Char :=
  (List.intercalate ['\t'] (fields.map encodeField)) ++ ['\r', '\n']

/-- Row/field separator characters recognised by the csv reader. -/
def isSepChar (c : Char) : Bool := c = '\t' || c = '\r' || c = '\n'

/-- Parse the body of a quoted field (the opening quote already consumed):
a doubled quote is a literal quote, a lone quote closes the field.  `none`
models an unterminated quoted field. -/
def parseQuoted : List Char → Option (List Char × List Char)
  | [] => none
  | c :: rest =>
    if c = '"' then
      match rest with
      | [] => some ([], [])
      | c2 :: rest2 =>
        if c2 = '"' then (parseQuoted rest2).map (fun p => ('"' :: p.1, p.2))
        else some ([], c2 :: rest2)
    else (parseQuoted rest).map (fun p => (c :: p.1, p.2))

/-- Parse one field: quoted when it starts with the quote character,
otherwise everything up to the next separator. -/
def parseField (cs : List Char) : Option (List Char × List Char) :=
  match cs with
  | [] => some ([], [])
  | c :: rest0 =>
    if c = '"' then parseQuoted rest0
    else some (cs.takeWhile (fun c2 => !isSepChar c2),
               cs.dropWhile (fun c2 => !isSepChar c2))

/-- Parse one row: fields separated by tabs, ended by CRLF (or a bare CR or
LF, or the end of input).  The fuel bounds the number of fields; callers
pass at least the input length plus one, which always suffices. -/
def parseRowFuel : Nat → List Char → Option (List (List Char) × List Char)
  | 0, _ => none
  | fuel + 1, cs =>
    match parseField cs with
    | none => none
    | some (f, rest) =>
      match rest with
      | [] => some ([f], [])
      | c :: r =>
        if c = '\t' then (parseRowFuel fuel r).map (fun p => (f :: p.1, p.2))
        else if c = '\r' then
          some ([f], if r.head? = some '\n' then r.tail else r)
        else if c = '\n' then some ([f], r)
        else none

/-- Parse all rows until the input is exhausted. -/
def parseRowsFuel : Nat → List Char → Option (List (List (List Char)))
  | 0, _ => none
  | fuel + 1, cs =>
    if cs.isEmpty then some []
    else
      match parseRowFuel (cs.length + 1) cs with
      | none => none
      | some (row, rest) => (parseRowsFuel fuel rest).map (fun rows => row :: rows)

/-- Parse a whole TSV file into rows of fields. -/
def parseRows (cs : List Char) : Option (List (List (List Char))) :=
  parseRowsFuel (cs.length + 1) cs

/-- Canonical field list `TSV_FIELDS` (the values of `OBJ_KEY_MAP`, in
insertion order). -/
def TSV_FIELDS : List (List Char) :=
  [s2c "last_modified", s2c "size", s2c "storage_class", s2c "e_tag",
   s2c "checksum_algorithm", s2c "checksum_type", s2c "key"]

/-- Metadata record for one object, all fields strings
(`catalog.ObjectMetadata`, declaration field order). -/
structure ObjectMetadata where
  key : List Char
  last_modified : List Char
  size : List Char
  storage_class : List Char
  e_tag : List Char
  checksum_algorithm : List Char
  checksum_type : List Char
  deriving DecidableEq, Repr

/-- Update-or-append one key/value pair, keeping the position of an existing
key (Python dict assignment). -/
def upsertPair : List (List Char × List Char) → (List Char × List Char) →
    List (List Char × List Char)
  | [], p => [p]
  | q :: qs, p => if q.1 = p.1 then (q.1, p.2) :: qs else q :: upsertPair qs p

/-- Build a Python dict from a pair sequence: first occurrence fixes the
position, the last value for a key wins. -/
def pyDict (pairs : List (List Char × List Char)) : List (List Char × List Char) :=
  pairs.foldl upsertPair []

/-- Dictionary lookup. -/
def lookupPair (k : List Char) : List (List Char × List Char) → Option (List Char)
  | [] => none
  | q :: qs => if q.1 = k then some q.2 else lookupPair k qs

/-- Construction `ObjectMetadata(**row)`: succeeds exactly when the row dict
keys are the seven canonical field names (an unexpected or missing keyword
raises TypeError). -/
def metaOfDict (d : List (List Char × List Char)) : Option ObjectMetadata :=
  match lookupPair (s2c "key") d, lookupPair (s2c "last_modified") d,
      lookupPair (s2c "size") d, lookupPair (s2c "storage_class") d,
      lookupPair (s2c "e_tag") d, lookupPair (s2c "checksum_algorithm") d,
      lookupPair (s2c "checksum_type") d with
  | some k, some lm, some sz, some sc, some et, some ca, some ct =>
    if d.all (fun p => decide (p.1 ∈ TSV_FIELDS)) then
      some ⟨k, lm, sz, sc, et, ca, ct⟩
    else none
  | _, _, _, _, _, _, _ => none

/-- One DictReader row to an `ObjectMetadata`.  Only the equal-arity case,
the one produced by the snapshot writer, is modelled as succeeding. -/
def rowToMeta (header row : List (List Char)) : Option ObjectMetadata :=
  if header.length = row.length then metaOfDict (pyDict (header.zip row))
  else none

/-- All data rows of a file to metadata records, failing on the first bad
row. -/
def rowsToMetas (header : List (List Char)) :
    List (List (List Char)) → Option (List ObjectMetadata)
  | [] => some []
  | row :: rest =>
    match rowToMeta header row, rowsToMetas header rest with
    | some m, some ms => some (m :: ms)
    | _, _ => none

/-- Embedding of `BucketScan.contents()`: the (uncompressed) file content is
parsed by `csv.DictReader` and each row becomes `ObjectMetadata(**row)`.
An empty file has no header and yields nothing. -/
def contentsOf (file : List Char) : Option (List ObjectMetadata) :=
  match parseRows file with
  | none => none
  | some [] => some []
  | some (header :: dataRows) => rowsToMetas header dataRows

/-! ## Flattening and the snapshot writer -/

/-- Values appearing in raw listing records handed to the writer. -/
inductive PyVal where
  | vStr (s : List Char)
  | vDt (d : PyDateTime)
  | vInt (n : Nat)
  | vList (l : List (List Char))
  deriving DecidableEq, Repr

/-- Two-digit zero-padded decimal rendering. -/
def pad2 (n : Nat) : List Char :=
  if n < 10 then '0' :: (toString n).data else (toString n).data

/-- Four-digit zero-padded decimal rendering. -/
def pad4 (n : Nat) : List Char :=
  if n < 10 then '0' :: '0' :: '0' :: (toString n).data
  else if n < 100 then '0' :: '0' :: (toString n).data
  else if n < 1000 then '0' :: (toString n).data
  else (toString n).data

/-- `datetime.isoformat()` for a whole-second value. -/
def isoformat (d : PyDateTime) : List Char :=
  pad4 d.year ++ '-' :: pad2 d.month ++ '-' :: pad2 d.day ++
    'T' :: pad2 d.hour ++ ':' :: pad2 d.minute ++ ':' :: pad2 d.second

/-- Embedding of `catalog.flatten`: lists join with ":", datetimes render
ISO-8601, a string whose first and last character are both a double quote
loses them, anything else stringifies.  `flatten("")` evaluates `value[0]`
on an empty string and raises IndexError, hence `none`. -/
def flatten : PyVal → Option (List Char)
  | .vList l => some (List.intercalate [':'] l)
  | .vDt d => some (isoformat d)
  | .vInt n => some (toString n).data
  | .vStr s =>
    match s with
    | [] => none
    | c :: rest =>
      if c = '"' ∧ (c :: rest).getLast (List.cons_ne_nil c rest) = '"' then
        some rest.dropLast
      else some (c :: rest)

/-- Embedding of `OBJ_KEY_MAP.get(k, k)`: rename the seven AWS-style keys,
pass every other key through unchanged. -/
def OBJ_KEY_MAP (k : List Char) : List Char :=
  if k = s2c "LastModified" then s2c "last_modified"
  else if k = s2c "Size" then s2c "size"
  else if k = s2c "StorageClass" then s2c "storage_class"
  else if k = s2c "ETag" then s2c "e_tag"
  else if k = s2c "ChecksumAlgorithm" then s2c "checksum_algorithm"
  else if k = s2c "ChecksumType" then s2c "checksum_type"
  else if k = s2c "Key" then s2c "key"
  else k

/-- The dict comprehension `{OBJ_KEY_MAP.get(k, k): flatten(v) for k, v in
obj.items()}`: every value is flattened in iteration order (the first
failure raises IndexError out of the comprehension), keys are renamed. -/
def flattenRecord : List (List Char × PyVal) → Option (List (List Char × List Char))
  | [] => some []
  | (k, v) :: rest =>
    match flatten v, flattenRecord rest with
    | some fv, some frest => some ((OBJ_KEY_MAP k, fv) :: frest)
    | _, _ => none

/-- `csv.DictWriter.writerow` with the default `extrasaction="raise"`: a row
key outside the field names raises ValueError; otherwise the row holds the
values in field-name order, a missing key contributing the empty-string
restval. -/
def writeRow (rec : List (List Char × PyVal)) : Except PyErr (List Char) :=
  match flattenRecord rec with
  | none => .error .indexError
  | some flat =>
    if (pyDict flat).all (fun p => decide (p.1 ∈ TSV_FIELDS)) then
      .ok (encodeRow (TSV_FIELDS.map (fun f => (lookupPair f (pyDict flat)).getD [])))
    else .error (.valueError "dict contains fields not in fieldnames")

/-- Write every record row, concatenating the encodings. -/
def writeRows : List (List (List Char × PyVal)) → Except PyErr (List Char)
  | [] => .ok []
  | rec :: rest =>
    match writeRow rec, writeRows rest with
    | .ok row, .ok rows => .ok (row ++ rows)
    | .error e, _ => .error e
    | _, .error e => .error e

/-- Embedding of `S3ObjectCatalog.output_s3_objects_to_tsv`: the produced
(uncompressed) file content is the `writeheader()` row of canonical field
names followed by one encoded row per record. -/
def output_s3_objects_to_tsv (records : List (List (List Char × PyVal))) :
    Except PyErr (List Char) :=
  match writeRows records with
  | .ok rows => .ok (encodeRow TSV_FIELDS ++ rows)
  | .error e => .error e

/-- A raw listing record carrying exactly the seven canonical attributes. -/
structure ObjectRecord where
  key : PyVal
  last_modified : PyVal
  size : PyVal
  storage_class : PyVal
  e_tag : PyVal
  checksum_algorithm : PyVal
  checksum_type : PyVal
  deriving DecidableEq, Repr

/-- The record as the key/value item sequence handed to the writer. -/
def ObjectRecord.toDict (r : ObjectRecord) : List (List Char × PyVal) :=
  [(s2c "key", r.key), (s2c "last_modified", r.last_modified),
   (s2c "size", r.size), (s2c "storage_class", r.storage_class),
   (s2c "e_tag", r.e_tag), (s2c "checksum_algorithm", r.checksum_algorithm),
   (s2c "checksum_type", r.checksum_type)]

/-- The metadata the record flattens to, when every field flattens. -/
def ObjectRecord.flattenMeta (r : ObjectRecord) : Option ObjectMetadata :=
  match flatten r.key, flatten r.last_modified, flatten r.size,
      flatten r.storage_class, flatten r.e_tag, flatten r.checksum_algorithm,
      flatten r.checksum_type with
  | some k, some lm, some sz, some sc, some et, some ca, some ct =>
    some ⟨k, lm, sz, sc, et, ca, ct⟩
  | _, _, _, _, _, _, _ => none

/-- Flatten a record list elementwise. -/
def flattenMetas : List ObjectRecord → Option (List ObjectMetadata)
  | [] => some []
  | r :: rest =>
    match ObjectRecord.flattenMeta r, flattenMetas rest with
    | some m, some ms => some (m :: ms)
    | _, _ => none

/-- The TSV row a metadata record is written as (values in `TSV_FIELDS`
order). -/
def metaRow (m : ObjectMetadata) : List (List Char) :=
  [m.last_modified, m.size, m.storage_class, m.e_tag, m.checksum_algorithm,
   m.checksum_type, m.key]

/-! ## Index documents and the engine schema (`iter_dicts`, `build_schema`,
`run_query` decoding) -/

/-- Embedding of `BucketScan.flattened_dict`. -/
def BucketScan.flattened_dict (b : BucketScan) : List (List Char × List Char) :=
  [(s2c "scan_start", isoformat b.scan_start), (s2c "bucket_name", b.bucket_name)]

/-- Embedding of `ObjectMetadata.flattened_dict` (`dataclasses.asdict`,
declaration field order). -/
def ObjectMetadata.flattened_dict (m : ObjectMetadata) :
    List (List Char × List Char) :=
  [(s2c "key", m.key), (s2c "last_modified", m.last_modified),
   (s2c "size", m.size), (s2c "storage_class", m.storage_class),
   (s2c "e_tag", m.e_tag), (s2c "checksum_algorithm", m.checksum_algorithm),
   (s2c "checksum_type", m.checksum_type)]

/-- Python dict union `a | b`: keys keep the position of their first
occurrence, later values win. -/
def dictMerge (a b : List (List Char × List Char)) : List (List Char × List Char) :=
  pyDict (a ++ b)

/-- Documents contributed by the given scans in order (the loops inside
`iter_dicts`/`current_contents`); `content` maps a snapshot file name to its
uncompressed file content. -/
def iterDictsScans (content : List Char → List Char) :
    List BucketScan → Except PyErr (List (List (List Char × List Char)))
  | [] => .ok []
  | b :: rest =>
    match contentsOf (content b.file_name), iterDictsScans content rest with
    | some metas, .ok ds =>
      .ok (metas.map (fun m =>
        dictMerge (BucketScan.flattened_dict b)
          (ObjectMetadata.flattened_dict m)) ++ ds)
    | none, _ => .error (.typeError "row does not construct ObjectMetadata")
    | _, .error e => .error e

/-- Embedding of `S3ObjectCatalog.iter_dicts`: one merged dict per
`(bucket_scan, object_metadata)` pair of the current view. -/
def iter_dicts (files : List (List Char)) (content : List Char → List Char) :
    Except PyErr (List (List (List Char × List Char))) :=
  match current_bucket_scans files with
  | .ok cur => iterDictsScans content cur
  | .error e => .error e

/-- Field names declared by `tantivy_wrapper.build_schema`, in declaration
order. -/
def schemaFieldNames : List (List Char) :=
  [s2c "last_scan_timestamp", s2c "bucket_name", s2c "last_modified", s2c "size",
   s2c "storage_class", s2c "e_tag", s2c "checksum_algorithm",
   s2c "checksum_type", s2c "key"]

/-- Result dataclass of `tantivy_wrapper.S3ObjectResult`. -/
structure S3ObjectResult where
  last_scan_timestamp : List Char
  bucket_name : List Char
  last_modified : List Char
  size : List Char
  storage_class : List Char
  e_tag : List Char
  checksum_algorithm : List Char
  checksum_type : List Char
  key : List Char
  deriving DecidableEq, Repr

/-- Default sentinel of every `S3ObjectResult` field. -/
def MISSING : List Char := s2c "MISSING"

/-- Decoding step of `run_query`: each dataclass field is set from the
stored document when the field name is present, otherwise the "MISSING"
default remains. -/
def decodeDoc (doc : List (List Char × List Char)) : S3ObjectResult :=
  { last_scan_timestamp := (lookupPair (s2c "last_scan_timestamp") doc).getD MISSING,
    bucket_name := (lookupPair (s2c "bucket_name") doc).getD MISSING,
    last_modified := (lookupPair (s2c "last_modified") doc).getD MISSING,
    size := (lookupPair (s2c "size") doc).getD MISSING,
    storage_class := (lookupPair (s2c "storage_class") doc).getD MISSING,
    e_tag := (lookupPair (s2c "e_tag") doc).getD MISSING,
    checksum_algorithm := (lookupPair (s2c "checksum_algorithm") doc).getD MISSING,
    checksum_type := (lookupPair (s2c "checksum_type") doc).getD MISSING,
    key := (lookupPair (s2c "key") doc).getD MISSING }

/-! ## Concrete examples for the writer, reader and indexing claims -/

/-- Example record exercising a datetime, an integer, a tab character inside
a value and a single-double-quote string. -/
def exRec : ObjectRecord :=
  ⟨.vStr (s2c "k1"), .vDt ⟨2025, 3, 31, 1, 37, 5⟩, .vInt 123,
   .vStr (s2c "DEEP_ARCHIVE"), .vStr (s2c "e\ttag"), .vStr (s2c "SHA256"),
   .vStr ['"']⟩

/-- The metadata `exRec` flattens to. -/
def exMeta : ObjectMetadata :=
  ⟨s2c "k1", s2c "2025-03-31T01:37:05", s2c "123", s2c "DEEP_ARCHIVE",
   s2c "e\ttag", s2c "SHA256", []⟩

/-- The snapshot file produced for `exRec`. -/
def exRecFile : List Char :=
  s2c "last_modified\tsize\tstorage_class\te_tag\tchecksum_algorithm\tchecksum_type\tkey\r\n2025-03-31T01:37:05\t123\tDEEP_ARCHIVE\t\"e\ttag\"\tSHA256\t\tk1\r\n"

/-- A record whose key field is the empty string. -/
def exEmptyRec : ObjectRecord :=
  ⟨.vStr [], .vStr (s2c "x"), .vStr (s2c "x"), .vStr (s2c "x"), .vStr (s2c "x"),
   .vStr (s2c "x"), .vStr (s2c "x")⟩

/-- A listing record with one unknown key. -/
def exExtraRec : List (List Char × PyVal) := [(s2c "foo", .vStr (s2c "bar"))]

/-- Snapshot file content for the indexing example: header plus one data
row. -/
def exTsvContent : List Char :=
  s2c "last_modified\tsize\tstorage_class\te_tag\tchecksum_algorithm\tchecksum_type\tkey\r\nA\t5\tSC\tE\tCA\tCT\tK\r\n"

/-- The document `iter_dicts` produces from `exTsvContent` under the scan
file `20250503-164831-b.tsv`. -/
def exDoc : List (List Char × List Char) :=
  [(s2c "scan_start", s2c "2025-05-03T16:48:31"), (s2c "bucket_name", s2c "b"),
   (s2c "key", s2c "K"), (s2c "last_modified", s2c "A"), (s2c "size", s2c "5"),
   (s2c "storage_class", s2c "SC"), (s2c "e_tag", s2c "E"),
   (s2c "checksum_algorithm", s2c "CA"), (s2c "checksum_type", s2c "CT")]

/-! ## Claim theorems (first group) -/

/-- C10: `filter_by_file_endings(uri, None)` is always True,
`filter_by_file_endings(uri, [])` is always False, and for a non-empty
allow-list the result is True exactly when the URI ends (exact
trailing-character, case-sensitive suffix match) with at least one entry. -/
theorem filter_by_file_endings_spec (uri : List Char) :
    filter_by_file_endings uri none = true ∧
    filter_by_file_endings uri (some []) = false ∧
    ∀ es : List (List Char), es ≠ [] →
      (filter_by_file_endings uri (some es) = true ↔ ∃ e ∈ es, e <:+ uri) := by
  refine ⟨rfl, rfl, fun es _ => ?_⟩
  simp [filter_by_file_endings, List.any_eq_true, List.isSuffixOf_iff_suffix]

/-- Witness for C10 at concrete inputs: uri "a.tsv", endings [".tsv"]. -/
theorem filter_by_file_endings_spec_witness :
    ([s2c ".tsv"] ≠ ([] : List (List Char))) ∧
    (filter_by_file_endings (s2c "a.tsv") (some [s2c ".tsv"]) = true ↔
      ∃ e ∈ [s2c ".tsv"], e <:+ s2c "a.tsv") := by
  exact ⟨by decide, (filter_by_file_endings_spec (s2c "a.tsv")).2.2 [s2c ".tsv"] (by decide)⟩

/-- C2: with scanning enabled, `aos_scan` passes the `Path` output root into
the `bucket_prefix` parameter of `run_s3_object_scan`, whose isinstance check
rejects it with `TypeError("Bucket prefix must be a string or None")` before
any bucket is listed or any snapshot is written. -/
theorem aos_scan_scan_step_raises (output_root : List Char) (bp : Option (List Char))
    (buckets : List (List Char)) :
    aos_scan_scan_step output_root bp buckets =
      .error (.typeError "Bucket prefix must be a string or None") := by
  cases bp <;> rfl

/-! ## Helper lemmas: the most_recent_scans fold -/

theorem firstMaxAt_mem {p : List BucketScan} {w : BucketScan} (h : FirstMaxAt p w) :
    w ∈ p := by
  obtain ⟨l₁, l₂, rfl, -, -⟩ := h
  exact List.mem_append_right _ (List.mem_cons_self _ _)

theorem firstMaxAt_max {p : List BucketScan} {w : BucketScan} (h : FirstMaxAt p w) :
    ∀ t ∈ p, t.bucket_name = w.bucket_name → t.scan_start.key ≤ w.scan_start.key := by
  obtain ⟨l₁, l₂, rfl, h₁, h₂⟩ := h
  intro t ht hb
  rcases List.mem_append.mp ht with ht | ht
  · exact Nat.le_of_lt (h₁ t ht hb)
  · rcases List.mem_cons.mp ht with rfl | ht
    · exact Nat.le_refl _
    · exact h₂ t ht hb

theorem firstMaxAt_extend {p : List BucketScan} {w b : BucketScan} (h : FirstMaxAt p w)
    (hb : b.bucket_name = w.bucket_name → b.scan_start.key ≤ w.scan_start.key) :
    FirstMaxAt (p ++ [b]) w := by
  obtain ⟨l₁, l₂, rfl, h₁, h₂⟩ := h
  refine ⟨l₁, l₂ ++ [b], by simp, h₁, ?_⟩
  intro t ht hb2
  rcases List.mem_append.mp ht with ht | ht
  · exact h₂ t ht hb2
  · have : t = b := List.mem_singleton.mp ht
    subst this
    exact hb hb2

theorem firstMaxAt_new {p : List BucketScan} {b : BucketScan}
    (h : ∀ t ∈ p, t.bucket_name = b.bucket_name → t.scan_start.key < b.scan_start.key) :
    FirstMaxAt (p ++ [b]) b :=
  ⟨p, [], rfl, h, by simp⟩

theorem insertWinner_cases (acc : List BucketScan) (b : BucketScan) :
    (insertWinner acc b = acc ++ [b] ∧ ∀ w ∈ acc, w.bucket_name ≠ b.bucket_name) ∨
    (∃ l₁ w l₂, acc = l₁ ++ w :: l₂ ∧ w.bucket_name = b.bucket_name ∧
      (∀ u ∈ l₁, u.bucket_name ≠ b.bucket_name) ∧
      insertWinner acc b =
        l₁ ++ (if w.scan_start.key < b.scan_start.key then b else w) :: l₂) := by
  induction acc with
  | nil => exact Or.inl ⟨rfl, by simp⟩
  | cons w ws ih =>
    by_cases hw : w.bucket_name = b.bucket_name
    · right
      exact ⟨[], w, ws, rfl, hw, by simp, by simp [insertWinner, hw]⟩
    · rcases ih with ⟨heq, hfresh⟩ | ⟨l₁, u, l₂, hacc, hub, hl₁, heq⟩
      · left
        constructor
        · simp [insertWinner, hw, heq]
        · intro v hv
          rcases List.mem_cons.mp hv with rfl | hv
          · exact hw
          · exact hfresh v hv
      · right
        refine ⟨w :: l₁, u, l₂, by rw [hacc]; rfl, hub, ?_, ?_⟩
        · intro v hv
          rcases List.mem_cons.mp hv with rfl | hv
          · exact hw
          · exact hl₁ v hv
        · simp [insertWinner, hw, heq]

theorem winnersInv_step {processed acc : List BucketScan} (b : BucketScan)
    (h : WinnersInv processed acc) :
    WinnersInv (processed ++ [b]) (insertWinner acc b) := by
  obtain ⟨hfm, hcomp, hdist⟩ := h
  have hsym : Symmetric (fun a c : BucketScan => a.bucket_name ≠ c.bucket_name) :=
    fun a c h2 => Ne.symm h2
  have hpw : List.Pairwise (fun a c : BucketScan => a.bucket_name ≠ c.bucket_name) acc :=
    hdist
  have huniq : ∀ u ∈ acc, ∀ v ∈ acc, u.bucket_name = v.bucket_name → u = v := by
    intro u hu v hv he
    by_contra hne
    exact hpw.forall hsym hu hv hne he
  rcases insertWinner_cases acc b with ⟨heq, hfresh⟩ | ⟨l₁, w, l₂, hacc, hbw, hl₁, heq⟩
  · rw [heq]
    refine ⟨?_, ?_, ?_⟩
    · intro u hu
      rcases List.mem_append.mp hu with hu | hu
      · exact firstMaxAt_extend (hfm u hu) (fun hbu => ((hfresh u hu) hbu.symm).elim)
      · have hub : u = b := List.mem_singleton.mp hu
        subst hub
        apply firstMaxAt_new
        intro t ht hteq
        obtain ⟨w, hw, hwb⟩ := hcomp t ht
        exact ((hfresh w hw) (hwb.trans hteq)).elim
    · intro t ht
      rcases List.mem_append.mp ht with ht | ht
      · obtain ⟨w, hw, hwb⟩ := hcomp t ht
        exact ⟨w, List.mem_append_left _ hw, hwb⟩
      · have hte : t = b := List.mem_singleton.mp ht
        exact ⟨b, List.mem_append_right _ (List.mem_singleton_self _), by rw [hte]⟩
    · show List.Pairwise _ (acc ++ [b])
      rw [List.pairwise_append]
      refine ⟨hpw, List.pairwise_singleton _ _, ?_⟩
      intro u hu v hv
      have : v = b := List.mem_singleton.mp hv
      subst this
      exact hfresh u hu
  · have hwmem : w ∈ acc := by
      rw [hacc]
      exact List.mem_append_right _ (List.mem_cons_self _ _)
    have hl₂ : ∀ u ∈ l₂, u.bucket_name ≠ b.bucket_name := by
      intro u hu
      have hwu : w.bucket_name ≠ u.bucket_name := by
        have hp := hpw
        rw [hacc, List.pairwise_append] at hp
        exact (List.pairwise_cons.mp hp.2.1).1 u hu
      exact fun he => hwu (hbw.trans he.symm)
    by_cases hlt : w.scan_start.key < b.scan_start.key
    · rw [if_pos hlt] at heq
      rw [heq]
      refine ⟨?_, ?_, ?_⟩
      · intro u hu
        rcases List.mem_append.mp hu with hu | hu
        · exact firstMaxAt_extend
            (hfm u (by rw [hacc]; exact List.mem_append_left _ hu))
            (fun hbu => ((hl₁ u hu) hbu.symm).elim)
        · rcases List.mem_cons.mp hu with rfl | hu
          · apply firstMaxAt_new
            intro t ht hteq
            obtain ⟨w', hw', hwb'⟩ := hcomp t ht
            have hww : w' = w := huniq w' hw' w hwmem ((hwb'.trans hteq).trans hbw.symm)
            subst hww
            have hle := firstMaxAt_max (hfm w' hw') t ht (hteq.trans hbw.symm)
            exact Nat.lt_of_le_of_lt hle hlt
          · exact firstMaxAt_extend
              (hfm u (by
                rw [hacc]
                exact List.mem_append_right _ (List.mem_cons_of_mem _ hu)))
              (fun hbu => ((hl₂ u hu) hbu.symm).elim)
      · intro t ht
        rcases List.mem_append.mp ht with ht | ht
        · obtain ⟨w', hw', hwb'⟩ := hcomp t ht
          rw [hacc] at hw'
          rcases List.mem_append.mp hw' with hw' | hw'
          · exact ⟨w', List.mem_append_left _ hw', hwb'⟩
          · rcases List.mem_cons.mp hw' with rfl | hw'
            · exact ⟨b, List.mem_append_right _ (List.mem_cons_self _ _),
                hbw.symm.trans hwb'⟩
            · exact ⟨w', List.mem_append_right _ (List.mem_cons_of_mem _ hw'), hwb'⟩
        · have hte : t = b := List.mem_singleton.mp ht
          exact ⟨b, List.mem_append_right _ (List.mem_cons_self _ _), by rw [hte]⟩
      · show List.Pairwise _ (l₁ ++ b :: l₂)
        have hp := hpw
        rw [hacc] at hp
        rw [List.pairwise_append] at hp ⊢
        obtain ⟨hp₁, hp₂, hp₃⟩ := hp
        rw [List.pairwise_cons] at hp₂ ⊢
        refine ⟨hp₁, ⟨?_, hp₂.2⟩, ?_⟩
        · intro u hu
          exact fun he => (hl₂ u hu) he.symm
        · intro u hu v hv
          rcases List.mem_cons.mp hv with rfl | hv
          · exact hl₁ u hu
          · exact hp₃ u hu v (List.mem_cons_of_mem _ hv)
    · rw [if_neg hlt] at heq
      rw [heq, ← hacc]
      refine ⟨?_, ?_, hdist⟩
      · intro u hu
        by_cases huw : u = w
        · subst huw
          exact firstMaxAt_extend (hfm u hu)
            (fun _ => Nat.le_of_not_lt hlt)
        · have hne : u.bucket_name ≠ w.bucket_name :=
            fun he => huw (huniq u hu w hwmem he)
          exact firstMaxAt_extend (hfm u hu)
            (fun hbu => (hne (hbu.symm.trans hbw.symm)).elim)
      · intro t ht
        rcases List.mem_append.mp ht with ht | ht
        · exact hcomp t ht
        · have hte : t = b := List.mem_singleton.mp ht
          exact ⟨w, hwmem, by rw [hte]; exact hbw⟩

theorem winnersInv_foldl (scans : List BucketScan) :
    ∀ (processed acc : List BucketScan), WinnersInv processed acc →
      WinnersInv (processed ++ scans) (scans.foldl insertWinner acc) := by
  induction scans with
  | nil =>
    intro p acc h
    simpa using h
  | cons b bs ih =>
    intro p acc h
    have h3 := ih (p ++ [b]) (insertWinner acc b) (winnersInv_step b h)
    simpa [List.append_assoc] using h3

theorem winnersInv_winners (scans : List BucketScan) : WinnersInv scans (winners scans) := by
  have h0 : WinnersInv [] [] := ⟨by simp, by simp, List.Pairwise.nil⟩
  have := winnersInv_foldl scans [] [] h0
  simpa [winners] using this

theorem sortScans_perm (l : List BucketScan) : List.Perm (sortScans l) l :=
  List.perm_insertionSort _ l

theorem sortScans_sorted (l : List BucketScan) : List.Sorted ScanKeyLE (sortScans l) :=
  List.sorted_insertionSort _ l

theorem current_bucket_scans_eq {files : List (List Char)} {all : List BucketScan}
    (hall : all_bucket_scans files = .ok all) :
    current_bucket_scans files = .ok (sortScans (winners all)) := by
  unfold current_bucket_scans
  rw [hall]

/-! ## Helper lemmas: parsing of matched names -/

theorem parseBucketScan_name {n : List Char} {b : BucketScan}
    (h : parseBucketScan n = some b) : b.file_name = n := by
  unfold parseBucketScan at h
  cases hbn : bucketName n with
  | none => rw [hbn] at h; exact absurd h (by simp)
  | some bn =>
    cases hss : scanStart n with
    | none => rw [hbn, hss] at h; exact absurd h (by simp)
    | some d =>
      rw [hbn, hss] at h
      cases h
      rfl

theorem parseAll_ok_names : ∀ {l : List (List Char)} {r : List BucketScan},
    parseAll l = some r → r.map (fun b => b.file_name) = l := by
  intro l
  induction l with
  | nil =>
    intro r h
    cases h
    rfl
  | cons n ns ih =>
    intro r h
    unfold parseAll at h
    cases hbn : parseBucketScan n with
    | none => rw [hbn] at h; exact absurd h (by simp)
    | some b =>
      cases hns : parseAll ns with
      | none => rw [hbn, hns] at h; exact absurd h (by simp)
      | some bs =>
        rw [hbn, hns] at h
        cases h
        simp [ih hns, parseBucketScan_name hbn]

theorem parseAll_ok_mem : ∀ {l : List (List Char)} {r : List BucketScan},
    parseAll l = some r → ∀ b ∈ r, parseBucketScan b.file_name = some b := by
  intro l
  induction l with
  | nil =>
    intro r h
    cases h
    intro b hb
    exact absurd hb (by simp)
  | cons n ns ih =>
    intro r h
    unfold parseAll at h
    cases hbn : parseBucketScan n with
    | none => rw [hbn] at h; exact absurd h (by simp)
    | some b =>
      cases hns : parseAll ns with
      | none => rw [hbn, hns] at h; exact absurd h (by simp)
      | some bs =>
        rw [hbn, hns] at h
        cases h
        intro c hc
        rcases List.mem_cons.mp hc with rfl | hc
        · rw [parseBucketScan_name hbn]
          exact hbn
        · exact ih hns c hc

theorem parseAll_none : ∀ {l : List (List Char)},
    (∃ n ∈ l, parseBucketScan n = none) → parseAll l = none := by
  intro l
  induction l with
  | nil =>
    intro h
    simp at h
  | cons n ns ih =>
    intro h
    unfold parseAll
    rcases h with ⟨m, hm, hmn⟩
    rcases List.mem_cons.mp hm with rfl | hm
    · rw [hmn]
    · rw [ih ⟨m, hm, hmn⟩]
      cases parseBucketScan n <;> rfl

theorem parseAll_of_forall : ∀ {l : List (List Char)},
    (∀ n ∈ l, (parseBucketScan n).isSome) → ∃ r, parseAll l = some r := by
  intro l
  induction l with
  | nil => exact fun _ => ⟨[], rfl⟩
  | cons n ns ih =>
    intro h
    obtain ⟨b, hb⟩ := Option.isSome_iff_exists.mp (h n (List.mem_cons_self _ _))
    obtain ⟨r, hr⟩ := ih (fun m hm => h m (List.mem_cons_of_mem _ hm))
    refine ⟨b :: r, ?_⟩
    unfold parseAll
    rw [hb, hr]

theorem all_bucket_scans_ok_iff {files : List (List Char)} {all : List BucketScan} :
    all_bucket_scans files = .ok all ↔ parseAll (matchedNames files) = some all := by
  unfold all_bucket_scans
  cases h : parseAll (matchedNames files) <;> simp

/-! ## Claim theorems: current view -/

/-- C1: for every catalog directory whose matched snapshot names all parse,
`current_bucket_scans()` returns at most one scan per distinct bucket name;
every returned scan is a discovered scan whose `scan_start` is maximal among
all discovered scans of its bucket (and every discovered bucket is
represented); and the returned list is sorted by `(scan_start,
bucket_name)`. -/
theorem current_bucket_scans_spec (files : List (List Char)) (all cur : List BucketScan)
    (hall : all_bucket_scans files = .ok all)
    (hcur : current_bucket_scans files = .ok cur) :
    (∀ s ∈ cur, ∀ t ∈ cur, s.bucket_name = t.bucket_name → s = t) ∧
    (∀ s ∈ cur, s ∈ all ∧
      ∀ t ∈ all, t.bucket_name = s.bucket_name → t.scan_start.key ≤ s.scan_start.key) ∧
    (∀ t ∈ all, ∃ s ∈ cur, s.bucket_name = t.bucket_name) ∧
    List.Sorted ScanKeyLE cur := by
  have hcur2 : cur = sortScans (winners all) := by
    rw [current_bucket_scans_eq hall] at hcur
    exact (Except.ok.inj hcur).symm
  subst hcur2
  obtain ⟨hfm, hcomp, hdist⟩ := winnersInv_winners all
  have hperm := sortScans_perm (winners all)
  have hmem : ∀ x : BucketScan, x ∈ sortScans (winners all) ↔ x ∈ winners all :=
    fun x => hperm.mem_iff
  have hsym : Symmetric (fun a c : BucketScan => a.bucket_name ≠ c.bucket_name) :=
    fun a c h2 => Ne.symm h2
  have hpw : List.Pairwise (fun a c : BucketScan => a.bucket_name ≠ c.bucket_name)
      (winners all) := hdist
  refine ⟨?_, ?_, ?_, sortScans_sorted _⟩
  · intro s hs t ht hb
    by_contra hne
    exact hpw.forall hsym ((hmem s).mp hs) ((hmem t).mp ht) hne hb
  · intro s hs
    have hf := hfm s ((hmem s).mp hs)
    exact ⟨firstMaxAt_mem hf, firstMaxAt_max hf⟩
  · intro t ht
    obtain ⟨w, hw, hwb⟩ := hcomp t ht
    exact ⟨w, (hmem w).mpr hw, hwb⟩

/-- Witness for C1 on a concrete three-file catalog (two scans of bucket
`bkt`, one of bucket `abkt`). -/
theorem current_bucket_scans_spec_witness :
    (all_bucket_scans exFiles1 = .ok [exScanA, exScanB, exScanC]) ∧
    (current_bucket_scans exFiles1 = .ok [exScanB, exScanC]) ∧
    List.Sorted ScanKeyLE [exScanB, exScanC] :=
  ⟨rfl, rfl,
    (current_bucket_scans_spec exFiles1 [exScanA, exScanB, exScanC]
      [exScanB, exScanC] rfl rfl).2.2.2⟩

/-- C4 counterexample: two scans of bucket `b` share the same `scan_start`;
iteration order discovers the `.tsv` first and the `.tsv.gz` later, yet
`current_bucket_scans` returns the earlier-discovered `.tsv` scan, not the
later-discovered one. -/
theorem current_bucket_scans_tie_cex :
    matchedNames exTieFiles = [exTieTsv.file_name, exTieGz.file_name] ∧
    all_bucket_scans exTieFiles = .ok [exTieTsv, exTieGz] ∧
    exTieTsv.bucket_name = exTieGz.bucket_name ∧
    exTieTsv.scan_start = exTieGz.scan_start ∧
    current_bucket_scans exTieFiles = .ok [exTieTsv] ∧
    exTieTsv.file_name ≠ exTieGz.file_name :=
  ⟨rfl, rfl, rfl, rfl, rfl, by decide⟩

/-- C4 (amended): the dict update uses a strict comparison, so on equal
`scan_start` the EARLIER-discovered scan wins: every returned scan is the
first scan of its bucket, in `all_bucket_scans` iteration order, attaining
the per-bucket maximum (same-bucket scans discovered before it are strictly
smaller, those discovered after it never exceed it). -/
theorem current_bucket_scans_first_of_max (files : List (List Char))
    (all cur : List BucketScan)
    (hall : all_bucket_scans files = .ok all)
    (hcur : current_bucket_scans files = .ok cur) :
    ∀ s ∈ cur, ∃ l₁ l₂, all = l₁ ++ s :: l₂ ∧
      (∀ t ∈ l₁, t.bucket_name = s.bucket_name → t.scan_start.key < s.scan_start.key) ∧
      (∀ t ∈ l₂, t.bucket_name = s.bucket_name →
        t.scan_start.key ≤ s.scan_start.key) := by
  have hcur2 : cur = sortScans (winners all) := by
    rw [current_bucket_scans_eq hall] at hcur
    exact (Except.ok.inj hcur).symm
  subst hcur2
  obtain ⟨hfm, -, -⟩ := winnersInv_winners all
  intro s hs
  exact hfm s ((sortScans_perm (winners all)).mem_iff.mp hs)

/-- Witness for the amended C4 at the concrete tie. -/
theorem current_bucket_scans_first_of_max_witness :
    (all_bucket_scans exTieFiles = .ok [exTieTsv, exTieGz]) ∧
    (current_bucket_scans exTieFiles = .ok [exTieTsv]) ∧
    (∀ s ∈ [exTieTsv], ∃ l₁ l₂, ([exTieTsv, exTieGz] : List BucketScan) = l₁ ++ s :: l₂ ∧
      (∀ t ∈ l₁, t.bucket_name = s.bucket_name → t.scan_start.key < s.scan_start.key) ∧
      (∀ t ∈ l₂, t.bucket_name = s.bucket_name →
        t.scan_start.key ≤ s.scan_start.key)) :=
  ⟨rfl, rfl,
    current_bucket_scans_first_of_max exTieFiles [exTieTsv, exTieGz] [exTieTsv] rfl rfl⟩

/-- C8 counterexample: `abcdefgh-ijklmn-c.tsv` matches the snapshot glob but
fails to parse; instead of being skipped with a warning,
`current_bucket_scans` over a directory containing it (plus one well-formed
snapshot) raises, returning no list at all. -/
theorem malformed_scan_cex :
    matchesScanPattern patternTsv exBadName = true ∧
    parseBucketScan exBadName = none ∧
    current_bucket_scans exMixedFiles =
      .error (.valueError "unparseable scan file name") ∧
    ∀ l, current_bucket_scans exMixedFiles ≠ .ok l := by
  refine ⟨rfl, rfl, rfl, ?_⟩
  intro l h
  have h2 : current_bucket_scans exMixedFiles =
      .error (.valueError "unparseable scan file name") := rfl
  rw [h2] at h
  exact Except.noConfusion h

/-- C8 (amended): a matched file whose name fails to parse is not skipped;
the exception escaping its first attribute access aborts the whole
directory-scan consumer, so `current_bucket_scans` raises whenever any
matched name is unparseable. -/
theorem current_bucket_scans_error_on_malformed (files : List (List Char))
    (h : ∃ n ∈ matchedNames files, parseBucketScan n = none) :
    current_bucket_scans files = .error (.valueError "unparseable scan file name") := by
  unfold current_bucket_scans all_bucket_scans
  rw [parseAll_none h]

/-- Witness for the amended C8 at the concrete mixed directory. -/
theorem current_bucket_scans_error_on_malformed_witness :
    (∃ n ∈ matchedNames exMixedFiles, parseBucketScan n = none) ∧
    current_bucket_scans exMixedFiles =
      .error (.valueError "unparseable scan file name") :=
  ⟨⟨exBadName, by decide, rfl⟩,
    current_bucket_scans_error_on_malformed exMixedFiles ⟨exBadName, by decide, rfl⟩⟩

/-! ## Helper lemmas: the archiver -/

theorem insertArchive_mem_self (e : Nat × Nat × Nat × List Char)
    (arch : List (Nat × Nat × Nat × List Char)) : e ∈ insertArchive e arch := by
  by_cases h : e ∈ arch
  · simp [insertArchive, h]
  · simp [insertArchive, h]

theorem insertArchive_mem_mono {x e : Nat × Nat × Nat × List Char}
    {arch : List (Nat × Nat × Nat × List Char)} (h : x ∈ arch) :
    x ∈ insertArchive e arch := by
  unfold insertArchive
  split
  · exact h
  · exact List.mem_append_left _ h

theorem foldl_moveOne_archive_mono {l : List BucketScan} :
    ∀ {st : CatalogFS} {x}, x ∈ st.archive → x ∈ (l.foldl moveOne st).archive := by
  induction l with
  | nil => exact fun h => h
  | cons b bs ih =>
    intro st x h
    exact ih (insertArchive_mem_mono h)

theorem foldl_moveOne_archive_mem {l : List BucketScan} :
    ∀ {st : CatalogFS} {b}, b ∈ l → archiveEntry b ∈ (l.foldl moveOne st).archive := by
  induction l with
  | nil =>
    intro st b h
    exact absurd h (by simp)
  | cons c cs ih =>
    intro st b h
    rw [List.foldl_cons]
    rcases List.mem_cons.mp h with rfl | h
    · exact foldl_moveOne_archive_mono (insertArchive_mem_self _ _)
    · exact ih h

theorem foldl_moveOne_rootFiles (l : List BucketScan) :
    ∀ st : CatalogFS, (l.foldl moveOne st).rootFiles =
      st.rootFiles.filter
        (fun n => decide (n ∉ l.map (fun b => b.file_name))) := by
  induction l with
  | nil =>
    intro st
    simp
  | cons b bs ih =>
    intro st
    rw [List.foldl_cons, ih]
    show (st.rootFiles.filter (fun n => decide (n ≠ b.file_name))).filter _ = _
    rw [List.filter_filter]
    apply List.filter_congr
    intro n _
    by_cases h1 : n = b.file_name <;>
      by_cases h2 : n ∈ bs.map (fun c => c.file_name) <;>
      simp [h1, h2]

theorem mem_matchedNames {files : List (List Char)} {n : List Char} :
    n ∈ matchedNames files ↔ n ∈ files ∧ isScanName n = true := by
  unfold matchedNames isScanName
  simp only [List.mem_append, List.mem_filter, Bool.or_eq_true]
  tauto

theorem not_both_patterns (n : List Char) :
    ¬(matchesScanPattern patternTsv n = true ∧ matchesScanPattern patternTsvGz n = true) := by
  rintro ⟨h1, h2⟩
  unfold matchesScanPattern at h1 h2
  simp only [Bool.and_eq_true, List.isSuffixOf_iff_suffix] at h1 h2
  rcases List.suffix_or_suffix_of_suffix h1.2 h2.2 with h | h
  · exact absurd h (by decide)
  · exact absurd h (by decide)

theorem matchedNames_nodup {files : List (List Char)} (h : files.Nodup) :
    (matchedNames files).Nodup := by
  unfold matchedNames
  rw [List.nodup_append]
  refine ⟨h.filter _, h.filter _, ?_⟩
  intro n hn1 hn2
  exact not_both_patterns n
    ⟨(List.mem_filter.mp hn1).2, (List.mem_filter.mp hn2).2⟩

theorem all_bucket_scans_names {files : List (List Char)} {all : List BucketScan}
    (hall : all_bucket_scans files = .ok all) :
    all.map (fun b => b.file_name) = matchedNames files :=
  parseAll_ok_names (all_bucket_scans_ok_iff.mp hall)

theorem all_bucket_scans_parse {files : List (List Char)} {all : List BucketScan}
    (hall : all_bucket_scans files = .ok all) :
    ∀ b ∈ all, parseBucketScan b.file_name = some b :=
  parseAll_ok_mem (all_bucket_scans_ok_iff.mp hall)

theorem current_facts {files : List (List Char)} {all cur : List BucketScan}
    (hall : all_bucket_scans files = .ok all)
    (hcur : current_bucket_scans files = .ok cur) :
    (∀ s ∈ cur, s ∈ all) ∧
    (∀ s ∈ cur, ∀ t ∈ cur, s.bucket_name = t.bucket_name → s = t) := by
  have hcur2 : cur = sortScans (winners all) := by
    rw [current_bucket_scans_eq hall] at hcur
    exact (Except.ok.inj hcur).symm
  subst hcur2
  obtain ⟨hfm, -, hdist⟩ := winnersInv_winners all
  have hmem : ∀ x : BucketScan, x ∈ sortScans (winners all) ↔ x ∈ winners all :=
    fun x => (sortScans_perm (winners all)).mem_iff
  constructor
  · intro s hs
    exact firstMaxAt_mem (hfm s ((hmem s).mp hs))
  · intro s hs t ht hb
    by_contra hne
    have hpw : List.Pairwise (fun a c : BucketScan => a.bucket_name ≠ c.bucket_name)
        (winners all) := hdist
    exact hpw.forall (fun a c h2 => Ne.symm h2) ((hmem s).mp hs) ((hmem t).mp ht) hne hb

theorem oldScansOf_names {cur all : List BucketScan} {files : List (List Char)}
    (hall : all_bucket_scans files = .ok all) (n : List Char) :
    (∃ b ∈ oldScansOf cur all, b.file_name = n) ↔
      (n ∈ matchedNames files ∧ n ∉ cur.map (fun c => c.file_name)) := by
  constructor
  · rintro ⟨b, hb, rfl⟩
    have hb2 := List.mem_filter.mp hb
    refine ⟨?_, of_decide_eq_true hb2.2⟩
    rw [← all_bucket_scans_names hall]
    exact List.mem_map_of_mem _ hb2.1
  · rintro ⟨hmn, hnc⟩
    rw [← all_bucket_scans_names hall] at hmn
    obtain ⟨b, hb, rfl⟩ := List.mem_map.mp hmn
    exact ⟨b, List.mem_filter.mpr ⟨hb, decide_eq_true hnc⟩, rfl⟩

theorem archive_old_scans_cases {st st2 : CatalogFS} {cur all : List BucketScan}
    (hcur : current_bucket_scans st.rootFiles = .ok cur)
    (hall : all_bucket_scans st.rootFiles = .ok all)
    (h : archive_old_scans st = .ok st2) :
    (oldScansOf cur all = [] ∧ st2 = st) ∨
    (oldScansOf cur all ≠ [] ∧ st2 = (oldScansOf cur all).foldl moveOne st) := by
  unfold archive_old_scans at h
  rw [hcur, hall] at h
  have h2 : (if (oldScansOf cur all).isEmpty then (Except.ok st : Except PyErr CatalogFS)
      else .ok ((oldScansOf cur all).foldl moveOne st)) = .ok st2 := h
  by_cases hemp : (oldScansOf cur all).isEmpty
  · rw [if_pos hemp] at h2
    exact Or.inl ⟨List.isEmpty_iff.mp hemp, (Except.ok.inj h2).symm⟩
  · rw [if_neg hemp] at h2
    exact Or.inr ⟨fun he => hemp (by rw [he]; rfl), (Except.ok.inj h2).symm⟩

theorem archive_rootFiles_eq {st st2 : CatalogFS} {cur all : List BucketScan}
    (hcur : current_bucket_scans st.rootFiles = .ok cur)
    (hall : all_bucket_scans st.rootFiles = .ok all)
    (h : archive_old_scans st = .ok st2) :
    st2.rootFiles = st.rootFiles.filter
      (fun n => !isScanName n || decide (n ∈ cur.map (fun b => b.file_name))) := by
  have hchar : ∀ n ∈ st.rootFiles,
      (n ∈ (oldScansOf cur all).map (fun b => b.file_name)) ↔
        (isScanName n = true ∧ n ∉ cur.map (fun c => c.file_name)) := by
    intro n hn
    rw [List.mem_map]
    constructor
    · rintro ⟨b, hb, rfl⟩
      have h2 := (oldScansOf_names hall b.file_name).mp ⟨b, hb, rfl⟩
      exact ⟨(mem_matchedNames.mp h2.1).2, h2.2⟩
    · rintro ⟨hsn, hnc⟩
      obtain ⟨b, hb, he⟩ :=
        (oldScansOf_names hall n).mpr ⟨mem_matchedNames.mpr ⟨hn, hsn⟩, hnc⟩
      exact ⟨b, hb, he⟩
  rcases archive_old_scans_cases hcur hall h with ⟨hemp, rfl⟩ | ⟨hne, rfl⟩
  · symm
    rw [List.filter_eq_self]
    intro n hn
    by_cases hsn : isScanName n = true
    · by_cases hnc : n ∈ cur.map (fun c => c.file_name)
      · simp [hnc]
      · exfalso
        have := (hchar n hn).mpr ⟨hsn, hnc⟩
        rw [hemp] at this
        simp at this
    · simp [hsn]
  · rw [foldl_moveOne_rootFiles]
    apply List.filter_congr
    intro n hn
    have hiff := hchar n hn
    by_cases h1 : n ∈ (oldScansOf cur all).map (fun b => b.file_name) <;>
      by_cases h2 : isScanName n = true <;>
      by_cases h3 : n ∈ cur.map (fun c => c.file_name) <;>
      simp [h1, h2, h3] at hiff ⊢

theorem insertWinner_fresh {acc : List BucketScan} {b : BucketScan}
    (h : ∀ w ∈ acc, w.bucket_name ≠ b.bucket_name) :
    insertWinner acc b = acc ++ [b] := by
  rcases insertWinner_cases acc b with ⟨heq, -⟩ | ⟨l₁, w, l₂, hacc, hbw, -, -⟩
  · exact heq
  · exact absurd hbw
      (h w (by rw [hacc]; exact List.mem_append_right _ (List.mem_cons_self _ _)))

theorem foldl_insertWinner_fresh : ∀ {l : List BucketScan},
    List.Pairwise (fun a b => a.bucket_name ≠ b.bucket_name) l →
    ∀ acc, (∀ a ∈ acc, ∀ b ∈ l, a.bucket_name ≠ b.bucket_name) →
    l.foldl insertWinner acc = acc ++ l := by
  intro l
  induction l with
  | nil =>
    intro _ acc _
    simp
  | cons b bs ih =>
    intro hp acc hacc
    have h2 := ih (List.pairwise_cons.mp hp).2 (acc ++ [b]) (by
      intro a ha c hc
      rcases List.mem_append.mp ha with ha | ha
      · exact hacc a ha c (List.mem_cons_of_mem _ hc)
      · have he : a = b := List.mem_singleton.mp ha
        rw [he]
        exact (List.pairwise_cons.mp hp).1 c hc)
    rw [List.foldl_cons,
      insertWinner_fresh (fun w hw => hacc w hw b (List.mem_cons_self _ _)), h2]
    simp

theorem winners_eq_of_distinct {l : List BucketScan}
    (h : List.Pairwise (fun a b => a.bucket_name ≠ b.bucket_name) l) :
    winners l = l := by
  have := foldl_insertWinner_fresh h [] (by simp)
  simpa [winners] using this

/-! ## Claim theorems: the archiver -/

/-- C6: `archive_old_scans()` moves exactly the snapshots whose file path is
not in the current view: afterwards the catalog root holds precisely the
files that are current-view members or match no snapshot pattern; each old
snapshot is present in the archive under the `{year}/{month}/{day}`
partition taken from its own `scan_start`; and every current-view file is
untouched in the catalog root. -/
theorem archive_old_scans_spec (st st2 : CatalogFS) (cur all : List BucketScan)
    (hcur : current_bucket_scans st.rootFiles = .ok cur)
    (hall : all_bucket_scans st.rootFiles = .ok all)
    (h : archive_old_scans st = .ok st2) :
    st2.rootFiles = st.rootFiles.filter
      (fun n => !isScanName n || decide (n ∈ cur.map (fun b => b.file_name))) ∧
    (∀ b ∈ all, b.file_name ∉ cur.map (fun c => c.file_name) →
      archiveEntry b ∈ st2.archive) ∧
    (∀ n ∈ st.rootFiles, n ∈ cur.map (fun b => b.file_name) → n ∈ st2.rootFiles) := by
  have hroot := archive_rootFiles_eq hcur hall h
  refine ⟨hroot, ?_, ?_⟩
  · intro b hb hbn
    have hbold : b ∈ oldScansOf cur all :=
      List.mem_filter.mpr ⟨hb, decide_eq_true hbn⟩
    rcases archive_old_scans_cases hcur hall h with ⟨hemp, rfl⟩ | ⟨-, rfl⟩
    · rw [hemp] at hbold
      exact absurd hbold (by simp)
    · exact foldl_moveOne_archive_mem hbold
  · intro n hn hcn
    rw [hroot]
    exact List.mem_filter.mpr ⟨hn, by simp [hcn]⟩

/-- Witness for C6 on the concrete two-file catalog. -/
theorem archive_old_scans_spec_witness :
    (current_bucket_scans exArchSt.rootFiles = .ok [exArchCur]) ∧
    (all_bucket_scans exArchSt.rootFiles = .ok [exArchOld, exArchCur]) ∧
    (archive_old_scans exArchSt = .ok exArchSt2) ∧
    (∀ b ∈ [exArchOld, exArchCur],
      b.file_name ∉ [exArchCur].map (fun c => c.file_name) →
      archiveEntry b ∈ exArchSt2.archive) :=
  ⟨rfl, rfl, rfl,
    (archive_old_scans_spec exArchSt exArchSt2 [exArchCur] [exArchOld, exArchCur]
      rfl rfl rfl).2.1⟩

/-- C7: `archive_old_scans()` is idempotent: immediately re-running it on the
resulting state succeeds and changes nothing (same current-view files in the
catalog root, no error); and when there are no old snapshots the state is
returned untouched, in particular the `archive/` directory is not created. -/
theorem archive_old_scans_idem (st st2 : CatalogFS) (cur all : List BucketScan)
    (hnd : st.rootFiles.Nodup)
    (hcur : current_bucket_scans st.rootFiles = .ok cur)
    (hall : all_bucket_scans st.rootFiles = .ok all)
    (h : archive_old_scans st = .ok st2) :
    archive_old_scans st2 = .ok st2 ∧
    ((∀ b ∈ all, b.file_name ∈ cur.map (fun c => c.file_name)) →
      st2 = st ∧ st2.archiveDirExists = st.archiveDirExists) := by
  have hroot := archive_rootFiles_eq hcur hall h
  have hcurall := current_facts hall hcur
  -- every matched name of the new root is a current-view name
  have hm2 : ∀ n ∈ matchedNames st2.rootFiles,
      ∃ s ∈ cur, s.file_name = n := by
    intro n hn
    have h1 := mem_matchedNames.mp hn
    rw [hroot] at h1
    have h2 := List.mem_filter.mp h1.1
    have h3 : (!isScanName n || decide (n ∈ cur.map (fun b => b.file_name))) = true :=
      h2.2
    rw [h1.2] at h3
    simp only [Bool.not_true, Bool.false_or, decide_eq_true_eq] at h3
    obtain ⟨s, hs, he⟩ := List.mem_map.mp h3
    exact ⟨s, hs, he⟩
  have hparse : ∀ n ∈ matchedNames st2.rootFiles, (parseBucketScan n).isSome := by
    intro n hn
    obtain ⟨s, hs, rfl⟩ := hm2 n hn
    rw [all_bucket_scans_parse hall s (hcurall.1 s hs)]
    rfl
  obtain ⟨r, hr⟩ := parseAll_of_forall hparse
  have hall2 : all_bucket_scans st2.rootFiles = .ok r := all_bucket_scans_ok_iff.mpr hr
  have hrcur : ∀ b ∈ r, b ∈ cur := by
    intro b hb
    have hname : b.file_name ∈ matchedNames st2.rootFiles := by
      rw [← all_bucket_scans_names hall2]
      exact List.mem_map_of_mem _ hb
    obtain ⟨s, hs, he⟩ := hm2 b.file_name hname
    have hps : parseBucketScan s.file_name = some s :=
      all_bucket_scans_parse hall s (hcurall.1 s hs)
    rw [he] at hps
    have hpb : parseBucketScan b.file_name = some b := all_bucket_scans_parse hall2 b hb
    have : s = b := Option.some.inj (hps.symm.trans hpb)
    rw [← this]
    exact hs
  -- the new root's scans have pairwise distinct buckets
  have hnd2 : st2.rootFiles.Nodup := by
    rw [hroot]
    exact hnd.filter _
  have hnames_nodup : (r.map (fun b => b.file_name)).Nodup := by
    rw [all_bucket_scans_names hall2]
    exact matchedNames_nodup hnd2
  have hdistinct : List.Pairwise (fun a b => a.bucket_name ≠ b.bucket_name) r := by
    have hpairs : List.Pairwise (fun a b : BucketScan => a.file_name ≠ b.file_name) r :=
      List.pairwise_map.mp hnames_nodup
    refine hpairs.imp_of_mem ?_
    intro a b ha hb hne he
    exact hne (congrArg (fun x => x.file_name) (hcurall.2 a (hrcur a ha) b (hrcur b hb) he))
  have hcur2 : current_bucket_scans st2.rootFiles = .ok (sortScans r) := by
    rw [current_bucket_scans_eq hall2, winners_eq_of_distinct hdistinct]
  have hold2 : oldScansOf (sortScans r) r = [] := by
    apply List.filter_eq_nil_iff.mpr
    intro b hb
    simp only [decide_eq_true_eq, Decidable.not_not]
    exact List.mem_map_of_mem _ ((sortScans_perm r).mem_iff.mpr hb)
  constructor
  · unfold archive_old_scans
    rw [hcur2, hall2]
    show (if (oldScansOf (sortScans r) r).isEmpty then (Except.ok st2 : Except PyErr CatalogFS)
      else .ok ((oldScansOf (sortScans r) r).foldl moveOne st2)) = .ok st2
    rw [hold2]
    rfl
  · intro hnone
    have hemp : oldScansOf cur all = [] := by
      apply List.filter_eq_nil_iff.mpr
      intro b hb
      simp only [decide_eq_true_eq, Decidable.not_not]
      exact hnone b hb
    rcases archive_old_scans_cases hcur hall h with ⟨-, rfl⟩ | ⟨hne, -⟩
    · exact ⟨rfl, rfl⟩
    · exact absurd hemp hne

/-- Witness for C7 on the concrete two-file catalog. -/
theorem archive_old_scans_idem_witness :
    exArchSt.rootFiles.Nodup ∧
    (archive_old_scans exArchSt = .ok exArchSt2) ∧
    (archive_old_scans exArchSt2 = .ok exArchSt2) :=
  ⟨by decide, rfl,
    (archive_old_scans_idem exArchSt exArchSt2 [exArchCur] [exArchOld, exArchCur]
      (by decide) rfl rfl rfl).1⟩

/-! ## Helper lemmas: TSV encode/decode round trip -/

theorem parseQuoted_escape (s : List Char) : ∀ (rest : List Char),
    rest.head? ≠ some '"' →
    parseQuoted (escapeQuotes s ++ '"' :: rest) = some (s, rest) := by
  induction s with
  | nil =>
    intro rest h
    cases rest with
    | nil => rfl
    | cons c2 rest2 =>
      have hc2 : ¬(c2 = '"') := fun he => h (by rw [he]; rfl)
      show (if c2 = '"' then
          (parseQuoted rest2).map (fun p => (('"' : Char) :: p.1, p.2))
        else some ([], c2 :: rest2)) = some ([], c2 :: rest2)
      rw [if_neg hc2]
  | cons c cs ih =>
    intro rest h
    by_cases hc : c = '"'
    · subst hc
      show (parseQuoted (escapeQuotes cs ++ '"' :: rest)).map
          (fun p => (('"' : Char) :: p.1, p.2)) = some ('"' :: cs, rest)
      rw [ih rest h]
      rfl
    · have he : escapeQuotes (c :: cs) = c :: escapeQuotes cs := by
        simp [escapeQuotes, hc]
      rw [he, List.cons_append]
      unfold parseQuoted
      rw [if_neg hc, ih rest h]
      rfl

theorem not_needsQuoting_mem {f : List Char} (h : needsQuoting f = false) :
    ∀ c ∈ f, isSepChar c = false ∧ c ≠ '"' := by
  intro c hc
  have h2 : (c = '\t' || c = '"' || c = '\r' || c = '\n') = false := by
    by_contra hb
    have : f.any (fun c2 => c2 = '\t' || c2 = '"' || c2 = '\r' || c2 = '\n') = true :=
      List.any_eq_true.mpr ⟨c, hc, by
        cases hx : (c = '\t' || c = '"' || c = '\r' || c = '\n') with
        | true => rfl
        | false => exact absurd hx hb⟩
    rw [needsQuoting] at h
    rw [this] at h
    cases h
  simp only [Bool.or_eq_false_iff, decide_eq_false_iff_not] at h2
  refine ⟨?_, h2.1.1.2⟩
  simp only [isSepChar, Bool.or_eq_false_iff, decide_eq_false_iff_not]
  exact ⟨⟨h2.1.1.1, h2.1.2⟩, h2.2⟩

theorem splitAtSep {f t : List Char} (hf : ∀ c ∈ f, isSepChar c = false)
    (ht : t = [] ∨ ∃ c rest, t = c :: rest ∧ isSepChar c = true) :
    (f ++ t).takeWhile (fun c => !isSepChar c) = f ∧
    (f ++ t).dropWhile (fun c => !isSepChar c) = t := by
  induction f with
  | nil =>
    rcases ht with rfl | ⟨c, rest, rfl, hc⟩
    · exact ⟨rfl, rfl⟩
    · constructor
      · simp [List.takeWhile_cons, hc]
      · simp [List.dropWhile_cons, hc]
  | cons a f2 ih =>
    have ha := hf a (List.mem_cons_self _ _)
    have ih2 := ih (fun c hc => hf c (List.mem_cons_of_mem _ hc))
    constructor
    · simp [List.takeWhile_cons, ha, ih2.1]
    · simp [List.dropWhile_cons, ha, ih2.2]

theorem parseField_encode (f t : List Char)
    (ht : ∃ c rest, t = c :: rest ∧ isSepChar c = true ∧ c ≠ '"') :
    parseField (encodeField f ++ t) = some (f, t) := by
  obtain ⟨c0, rest0, rfl, hc0, hc0q⟩ := ht
  by_cases hq : needsQuoting f
  · rw [encodeField, if_pos hq]
    have he : ('"' :: (escapeQuotes f ++ ['"'])) ++ (c0 :: rest0) =
        '"' :: (escapeQuotes f ++ '"' :: (c0 :: rest0)) := by simp
    rw [he]
    show parseQuoted (escapeQuotes f ++ '"' :: (c0 :: rest0)) = _
    exact parseQuoted_escape f _ (by simp [hc0q])
  · rw [encodeField, if_neg hq]
    have hall := not_needsQuoting_mem (Bool.eq_false_iff.mpr hq)
    have hsplit := splitAtSep (f := f) (t := c0 :: rest0)
      (fun c hc => (hall c hc).1) (Or.inr ⟨c0, rest0, rfl, hc0⟩)
    cases hf : f with
    | nil =>
      show (if c0 = '"' then parseQuoted rest0
        else some ((c0 :: rest0).takeWhile (fun c2 => !isSepChar c2),
                   (c0 :: rest0).dropWhile (fun c2 => !isSepChar c2))) =
          some ([], c0 :: rest0)
      rw [if_neg hc0q, List.takeWhile_cons, List.dropWhile_cons]
      simp [hc0]
    | cons a f2 =>
      have ha : ¬(a = '"') := (hall a (by rw [hf]; exact List.mem_cons_self _ _)).2
      rw [hf] at hsplit
      show (if a = '"' then parseQuoted (f2 ++ c0 :: rest0)
        else some ((a :: (f2 ++ c0 :: rest0)).takeWhile (fun c2 => !isSepChar c2),
                   (a :: (f2 ++ c0 :: rest0)).dropWhile (fun c2 => !isSepChar c2))) =
          some (a :: f2, c0 :: rest0)
      rw [if_neg ha,
        show a :: (f2 ++ c0 :: rest0) = (a :: f2) ++ (c0 :: rest0) from rfl,
        hsplit.1, hsplit.2]

theorem encodeRow_singleton (f : List Char) :
    encodeRow [f] = encodeField f ++ ['\r', '\n'] := by
  simp [encodeRow, List.intercalate]

theorem encodeRow_cons (f g : List Char) (fs : List (List Char)) :
    encodeRow (f :: g :: fs) = encodeField f ++ '\t' :: encodeRow (g :: fs) := by
  simp [encodeRow, List.intercalate, List.intersperse_cons_cons]

theorem encodeRow_ne_nil (fs : List (List Char)) : encodeRow fs ≠ [] := by
  intro h
  have h2 := congrArg List.length h
  simp [encodeRow] at h2

theorem encodeRow_length_ge : ∀ fs : List (List Char),
    fs.length ≤ (encodeRow fs).length
  | [] => by simp [encodeRow, List.intercalate]
  | [f] => by
    rw [encodeRow_singleton]
    simp
  | f :: g :: fs => by
    rw [encodeRow_cons]
    have h := encodeRow_length_ge (g :: fs)
    simp only [List.length_append, List.length_cons] at h ⊢
    omega

theorem parseRowFuel_encode : ∀ (fs : List (List Char)) (rest : List Char) (fuel : Nat),
    fs ≠ [] → fs.length ≤ fuel →
    parseRowFuel fuel (encodeRow fs ++ rest) = some (fs, rest) := by
  intro fs
  induction fs with
  | nil =>
    intro rest fuel h _
    exact absurd rfl h
  | cons f fs2 ih =>
    intro rest fuel _ hlen
    cases fuel with
    | zero => simp at hlen
    | succ fuel2 =>
      cases fs2 with
      | nil =>
        have he : encodeRow [f] ++ rest = encodeField f ++ ('\r' :: '\n' :: rest) := by
          rw [encodeRow_singleton, List.append_assoc]
          rfl
        rw [he]
        unfold parseRowFuel
        rw [parseField_encode f ('\r' :: '\n' :: rest)
          ⟨'\r', '\n' :: rest, rfl, by decide, by decide⟩]
        rfl
      | cons g fs3 =>
        have he : encodeRow (f :: g :: fs3) ++ rest =
            encodeField f ++ ('\t' :: (encodeRow (g :: fs3) ++ rest)) := by
          rw [encodeRow_cons, List.append_assoc]
          rfl
        rw [he]
        unfold parseRowFuel
        rw [parseField_encode f ('\t' :: (encodeRow (g :: fs3) ++ rest))
          ⟨'\t', encodeRow (g :: fs3) ++ rest, rfl, by decide, by decide⟩]
        have hlen2 : (g :: fs3).length ≤ fuel2 := by
          simp only [List.length_cons] at hlen ⊢
          omega
        show (parseRowFuel fuel2 (encodeRow (g :: fs3) ++ rest)).map
            (fun p => (f :: p.1, p.2)) = some (f :: g :: fs3, rest)
        rw [ih rest fuel2 (by simp) hlen2]
        rfl

theorem rows_length_le_flatten (rows : List (List (List Char))) :
    rows.length ≤ ((rows.map encodeRow).flatten).length := by
  induction rows with
  | nil => simp
  | cons row rows2 ih =>
    simp only [List.map_cons, List.flatten_cons, List.length_append, List.length_cons]
    have h2 : 1 ≤ (encodeRow row).length := by
      cases hh : encodeRow row with
      | nil => exact absurd hh (encodeRow_ne_nil row)
      | cons a l => simp
    omega

theorem parseRowsFuel_encode : ∀ (rows : List (List (List Char))) (fuel : Nat),
    (∀ row ∈ rows, row ≠ []) → rows.length < fuel →
    parseRowsFuel fuel ((rows.map encodeRow).flatten) = some rows := by
  intro rows
  induction rows with
  | nil =>
    intro fuel _ hf
    cases fuel with
    | zero => simp at hf
    | succ fuel2 => rfl
  | cons row rows2 ih =>
    intro fuel hne hf
    cases fuel with
    | zero => simp at hf
    | succ fuel2 =>
      have hjoin : ((row :: rows2).map encodeRow).flatten =
          encodeRow row ++ (rows2.map encodeRow).flatten := by simp
      rw [hjoin]
      have hcsne : (encodeRow row ++ (rows2.map encodeRow).flatten).isEmpty ≠ true := by
        cases hh : encodeRow row with
        | nil => exact absurd hh (encodeRow_ne_nil row)
        | cons a l => simp [hh]
      unfold parseRowsFuel
      rw [if_neg hcsne]
      have hlenrow : row.length ≤
          (encodeRow row ++ (rows2.map encodeRow).flatten).length + 1 := by
        have h1 := encodeRow_length_ge row
        simp only [List.length_append]
        omega
      rw [parseRowFuel_encode row ((rows2.map encodeRow).flatten) _
        (hne row (List.mem_cons_self _ _)) hlenrow]
      show (parseRowsFuel fuel2 ((rows2.map encodeRow).flatten)).map
          (fun rs => row :: rs) = some (row :: rows2)
      rw [ih fuel2 (fun r hr => hne r (List.mem_cons_of_mem _ hr))
        (by simp only [List.length_cons] at hf; omega)]
      rfl

theorem parseRows_encode (rows : List (List (List Char)))
    (hne : ∀ row ∈ rows, row ≠ []) :
    parseRows ((rows.map encodeRow).flatten) = some rows := by
  unfold parseRows
  apply parseRowsFuel_encode rows _ hne
  have := rows_length_le_flatten rows
  omega

/-! ## Helper lemmas: writer side of the round trip -/

theorem flattenMeta_inv {r : ObjectRecord} {m : ObjectMetadata}
    (h : ObjectRecord.flattenMeta r = some m) :
    flatten r.key = some m.key ∧ flatten r.last_modified = some m.last_modified ∧
    flatten r.size = some m.size ∧ flatten r.storage_class = some m.storage_class ∧
    flatten r.e_tag = some m.e_tag ∧
    flatten r.checksum_algorithm = some m.checksum_algorithm ∧
    flatten r.checksum_type = some m.checksum_type := by
  unfold ObjectRecord.flattenMeta at h
  cases hk : flatten r.key with
  | none => rw [hk] at h; simp at h
  | some k =>
  cases hlm : flatten r.last_modified with
  | none => rw [hk, hlm] at h; simp at h
  | some lm =>
  cases hsz : flatten r.size with
  | none => rw [hk, hlm, hsz] at h; simp at h
  | some sz =>
  cases hsc : flatten r.storage_class with
  | none => rw [hk, hlm, hsz, hsc] at h; simp at h
  | some sc =>
  cases het : flatten r.e_tag with
  | none => rw [hk, hlm, hsz, hsc, het] at h; simp at h
  | some et =>
  cases hca : flatten r.checksum_algorithm with
  | none => rw [hk, hlm, hsz, hsc, het, hca] at h; simp at h
  | some ca =>
  cases hct : flatten r.checksum_type with
  | none => rw [hk, hlm, hsz, hsc, het, hca, hct] at h; simp at h
  | some ct =>
  rw [hk, hlm, hsz, hsc, het, hca, hct] at h
  simp only [Option.some.injEq] at h
  subst h
  exact ⟨rfl, rfl, rfl, rfl, rfl, rfl, rfl⟩

theorem flattenMetas_cons {r : ObjectRecord} {rs : List ObjectRecord}
    {metas : List ObjectMetadata} (h : flattenMetas (r :: rs) = some metas) :
    ∃ m ms, ObjectRecord.flattenMeta r = some m ∧ flattenMetas rs = some ms ∧
      metas = m :: ms := by
  unfold flattenMetas at h
  cases hm : ObjectRecord.flattenMeta r with
  | none => rw [hm] at h; simp at h
  | some m =>
    cases hms : flattenMetas rs with
    | none => rw [hm, hms] at h; simp at h
    | some ms =>
      rw [hm, hms] at h
      simp only [Option.some.injEq] at h
      exact ⟨m, ms, rfl, rfl, h.symm⟩

theorem writeRow_toDict {r : ObjectRecord} {m : ObjectMetadata}
    (h : ObjectRecord.flattenMeta r = some m) :
    writeRow r.toDict = .ok (encodeRow (metaRow m)) := by
  obtain ⟨hk, hlm, hsz, hsc, het, hca, hct⟩ := flattenMeta_inv h
  simp only [ObjectRecord.toDict, writeRow, flattenRecord, hk, hlm, hsz, hsc, het,
    hca, hct]
  rfl

theorem writeRows_metas : ∀ {records : List ObjectRecord} {metas : List ObjectMetadata},
    flattenMetas records = some metas →
    writeRows (records.map (fun r => r.toDict)) =
      .ok ((metas.map (fun m => encodeRow (metaRow m))).flatten) := by
  intro records
  induction records with
  | nil =>
    intro metas h
    have h2 : ([] : List ObjectMetadata) = metas := Option.some.inj h
    subst h2
    rfl
  | cons r rs ih =>
    intro metas h
    obtain ⟨m, ms, hm, hms, rfl⟩ := flattenMetas_cons h
    show writeRows (r.toDict :: rs.map (fun r2 => r2.toDict)) = _
    unfold writeRows
    rw [writeRow_toDict hm, ih hms]
    rfl

theorem metaRow_ne_nil (m : ObjectMetadata) : metaRow m ≠ [] := by
  simp [metaRow]

theorem rowsToMetas_metaRows : ∀ metas : List ObjectMetadata,
    rowsToMetas TSV_FIELDS (metas.map metaRow) = some metas := by
  intro metas
  induction metas with
  | nil => rfl
  | cons m ms ih =>
    show rowsToMetas TSV_FIELDS (metaRow m :: ms.map metaRow) = _
    unfold rowsToMetas
    rw [show rowToMeta TSV_FIELDS (metaRow m) = some m from rfl, ih]

/-! ## Claim theorems: writer/reader round trip, extra keys, the schema -/

/-- C9 counterexample: `flatten` evaluates `value[0]` on the empty string
and raises IndexError, so a record containing an empty-string field cannot
be written at all: the round trip fails at the empty-string edge case the
claim includes. -/
theorem flatten_empty_cex :
    flatten (.vStr []) = none ∧
    output_s3_objects_to_tsv [ObjectRecord.toDict exEmptyRec] = .error .indexError ∧
    ∀ f, output_s3_objects_to_tsv [ObjectRecord.toDict exEmptyRec] ≠ .ok f := by
  refine ⟨rfl, rfl, ?_⟩
  intro f h
  have h2 : output_s3_objects_to_tsv [ObjectRecord.toDict exEmptyRec] =
      .error .indexError := rfl
  rw [h2] at h
  exact Except.noConfusion h

/-- C9 (amended): for every record list whose field values all flatten
(which excludes the empty string, where `flatten` raises IndexError),
writing via `output_s3_objects_to_tsv` and reading back via
`BucketScan.contents` yields exactly the flattened field values — for keys,
sizes, timestamps and quoted-string edge cases alike. -/
theorem tsv_round_trip (records : List ObjectRecord) (metas : List ObjectMetadata)
    (file : List Char)
    (hm : flattenMetas records = some metas)
    (hw : output_s3_objects_to_tsv (records.map (fun r => r.toDict)) = .ok file) :
    contentsOf file = some metas := by
  have hwr := writeRows_metas hm
  unfold output_s3_objects_to_tsv at hw
  rw [hwr] at hw
  have hfile : file = encodeRow TSV_FIELDS ++
      ((metas.map (fun m => encodeRow (metaRow m))).flatten) :=
    (Except.ok.inj hw).symm
  subst hfile
  have hjoin : encodeRow TSV_FIELDS ++
      ((metas.map (fun m => encodeRow (metaRow m))).flatten) =
      ((TSV_FIELDS :: metas.map metaRow).map encodeRow).flatten := by
    simp [List.map_map]
    rfl
  rw [hjoin]
  have hne : ∀ row ∈ TSV_FIELDS :: metas.map metaRow, row ≠ [] := by
    intro row hrow
    rcases List.mem_cons.mp hrow with rfl | hrow
    · simp [TSV_FIELDS]
    · obtain ⟨m, hm2, rfl⟩ := List.mem_map.mp hrow
      exact metaRow_ne_nil m
  unfold contentsOf
  rw [parseRows_encode (TSV_FIELDS :: metas.map metaRow) hne]
  exact rowsToMetas_metaRows metas

/-- Witness for the amended C9 at `exRec` (datetime, integer, embedded tab,
single-double-quote string). -/
theorem tsv_round_trip_witness :
    (flattenMetas [exRec] = some [exMeta]) ∧
    (output_s3_objects_to_tsv ([exRec].map (fun r => r.toDict)) = .ok exRecFile) ∧
    contentsOf exRecFile = some [exMeta] :=
  ⟨rfl, rfl, tsv_round_trip [exRec] [exMeta] exRecFile rfl rfl⟩

/-! ## Helper lemmas: dict keys of rows handed to the writer -/

theorem upsertPair_keys_mono : ∀ {acc : List (List Char × List Char)}
    {k : List Char} (p : List Char × List Char),
    k ∈ acc.map Prod.fst → k ∈ (upsertPair acc p).map Prod.fst := by
  intro acc
  induction acc with
  | nil =>
    intro k p h
    simp at h
  | cons q qs ih =>
    intro k p h
    rcases List.mem_cons.mp h with rfl | h
    · by_cases hq : q.1 = p.1
      · simp [upsertPair, hq]
      · simp [upsertPair, hq]
    · by_cases hq : q.1 = p.1
      · simp only [upsertPair, if_pos hq, List.map_cons]
        exact List.mem_cons_of_mem _ h
      · simp only [upsertPair, if_neg hq, List.map_cons]
        exact List.mem_cons_of_mem _ (ih p h)

theorem upsertPair_keys_self : ∀ (acc : List (List Char × List Char))
    (p : List Char × List Char), p.1 ∈ (upsertPair acc p).map Prod.fst := by
  intro acc
  induction acc with
  | nil => intro p; simp [upsertPair]
  | cons q qs ih =>
    intro p
    by_cases hq : q.1 = p.1
    · simp [upsertPair, hq]
    · simp only [upsertPair, if_neg hq, List.map_cons]
      exact List.mem_cons_of_mem _ (ih p)

theorem foldl_upsert_keys : ∀ (l acc : List (List Char × List Char)) (k : List Char),
    (k ∈ acc.map Prod.fst ∨ k ∈ l.map Prod.fst) →
    k ∈ (l.foldl upsertPair acc).map Prod.fst := by
  intro l
  induction l with
  | nil =>
    intro acc k h
    rcases h with h | h
    · exact h
    · simp at h
  | cons p ps ih =>
    intro acc k h
    rw [List.foldl_cons]
    rcases h with h | h
    · exact ih (upsertPair acc p) k (Or.inl (upsertPair_keys_mono p h))
    · rcases List.mem_cons.mp h with rfl | h
      · exact ih (upsertPair acc p) p.1 (Or.inl (upsertPair_keys_self acc p))
      · exact ih (upsertPair acc p) k (Or.inr h)

theorem flattenRecord_keys : ∀ {rec : List (List Char × PyVal)}
    {flat : List (List Char × List Char)}, flattenRecord rec = some flat →
    ∀ kv ∈ rec, OBJ_KEY_MAP kv.1 ∈ flat.map Prod.fst := by
  intro rec
  induction rec with
  | nil =>
    intro flat h kv hkv
    simp at hkv
  | cons p ps ih =>
    intro flat h kv hkv
    unfold flattenRecord at h
    cases hv : flatten p.2 with
    | none => rw [hv] at h; simp at h
    | some fv =>
      cases hrest : flattenRecord ps with
      | none => rw [hv, hrest] at h; simp at h
      | some frest =>
        rw [hv, hrest] at h
        simp only [Option.some.injEq] at h
        subst h
        rcases List.mem_cons.mp hkv with rfl | hkv
        · simp
        · simp only [List.map_cons]
          exact List.mem_cons_of_mem _ (ih hrest kv hkv)

/-- C5 counterexample: a record whose only key is `foo` (neither an AWS
listing name nor a canonical field name) is not written through: the key
passes the rename map unchanged and `csv.DictWriter` with its default
`extrasaction="raise"` raises ValueError, so no row is produced. -/
theorem writeRow_extra_key_cex :
    (OBJ_KEY_MAP (s2c "foo") = s2c "foo") ∧
    (s2c "foo" ∉ TSV_FIELDS) ∧
    writeRow exExtraRec = .error (.valueError "dict contains fields not in fieldnames") ∧
    ∀ out, writeRow exExtraRec ≠ .ok out := by
  refine ⟨rfl, by decide, rfl, ?_⟩
  intro out h
  have h2 : writeRow exExtraRec =
      .error (.valueError "dict contains fields not in fieldnames") := rfl
  rw [h2] at h
  exact Except.noConfusion h

/-- C5 (amended): a record key that is neither an `OBJ_KEY_MAP` name nor a
canonical field name is passed through the rename map unchanged, but the
writer then fails: `DictWriter.writerow` (default `extrasaction="raise"`)
raises `ValueError("dict contains fields not in fieldnames")`, so the record
is neither dropped silently nor written as an extra column. -/
theorem writeRow_raises_on_unknown_key (rec : List (List Char × PyVal))
    (flat : List (List Char × List Char)) (kv : List Char × PyVal)
    (hf : flattenRecord rec = some flat)
    (hmem : kv ∈ rec) (hunk : OBJ_KEY_MAP kv.1 ∉ TSV_FIELDS) :
    writeRow rec = .error (.valueError "dict contains fields not in fieldnames") := by
  unfold writeRow
  rw [hf]
  have hk : OBJ_KEY_MAP kv.1 ∈ (pyDict flat).map Prod.fst :=
    foldl_upsert_keys flat [] _ (Or.inr (flattenRecord_keys hf kv hmem))
  obtain ⟨p, hp, he⟩ := List.mem_map.mp hk
  have hall : (pyDict flat).all (fun p2 => decide (p2.1 ∈ TSV_FIELDS)) = false := by
    apply List.all_eq_false.mpr
    refine ⟨p, hp, ?_⟩
    simp only [decide_eq_true_eq]
    rw [he]
    exact hunk
  show (if ((pyDict flat).all fun p2 => decide (p2.1 ∈ TSV_FIELDS)) = true then
      (Except.ok (encodeRow (TSV_FIELDS.map (fun f => (lookupPair f (pyDict flat)).getD [])))
        : Except PyErr (List Char))
    else .error (.valueError "dict contains fields not in fieldnames")) =
    .error (.valueError "dict contains fields not in fieldnames")
  rw [hall]
  rfl

/-- Witness for the amended C5 at the concrete one-key record. -/
theorem writeRow_raises_on_unknown_key_witness :
    (flattenRecord exExtraRec = some [(s2c "foo", s2c "bar")]) ∧
    ((s2c "foo", PyVal.vStr (s2c "bar")) ∈ exExtraRec) ∧
    (OBJ_KEY_MAP (s2c "foo") ∉ TSV_FIELDS) ∧
    writeRow exExtraRec =
      .error (.valueError "dict contains fields not in fieldnames") :=
  ⟨rfl, by decide, by decide,
    writeRow_raises_on_unknown_key exExtraRec [(s2c "foo", s2c "bar")]
      (s2c "foo", PyVal.vStr (s2c "bar")) rfl (by decide) (by decide)⟩

/-! ## Helper lemmas: indexing documents -/

theorem dictMerge_keys (b : BucketScan) (m : ObjectMetadata) :
    (dictMerge (BucketScan.flattened_dict b) (ObjectMetadata.flattened_dict m)).map
      Prod.fst =
    [s2c "scan_start", s2c "bucket_name", s2c "key", s2c "last_modified",
     s2c "size", s2c "storage_class", s2c "e_tag", s2c "checksum_algorithm",
     s2c "checksum_type"] := rfl

theorem decode_merged (b : BucketScan) (m : ObjectMetadata) :
    (decodeDoc (dictMerge (BucketScan.flattened_dict b)
      (ObjectMetadata.flattened_dict m))).last_scan_timestamp = MISSING := rfl

theorem iterDictsScans_mem {content : List Char → List Char} :
    ∀ {l : List BucketScan} {ds : List (List (List Char × List Char))},
    iterDictsScans content l = .ok ds → ∀ d ∈ ds,
    ∃ b m, d = dictMerge (BucketScan.flattened_dict b)
      (ObjectMetadata.flattened_dict m) := by
  intro l
  induction l with
  | nil =>
    intro ds h d hd
    have h2 : ([] : List (List (List Char × List Char))) = ds := Except.ok.inj h
    subst h2
    exact absurd hd (by simp)
  | cons b bs ih =>
    intro ds h d hd
    unfold iterDictsScans at h
    cases hc : contentsOf (content b.file_name) with
    | none => rw [hc] at h; exact absurd h (by simp)
    | some metas =>
      cases hrest : iterDictsScans content bs with
      | error e => rw [hc, hrest] at h; exact absurd h (by simp)
      | ok ds2 =>
        rw [hc, hrest] at h
        have h2 := Except.ok.inj h
        subst h2
        rcases List.mem_append.mp hd with hd | hd
        · obtain ⟨m, hm, he⟩ := List.mem_map.mp hd
          exact ⟨b, m, he.symm⟩
        · exact ih hrest d hd

/-- C3: every dict produced by `iter_dicts` carries the key `scan_start` and
never `last_scan_timestamp`, while the index schema declares
`last_scan_timestamp` and no `scan_start`; hence every document handed to
`regenerate_index` has a field absent from the schema, and the decoded
`S3ObjectResult.last_scan_timestamp` is never populated from the catalog
(it stays "MISSING"). -/
theorem iter_dicts_schema_mismatch (files : List (List Char))
    (content : List Char → List Char) (ds : List (List (List Char × List Char)))
    (h : iter_dicts files content = .ok ds) :
    (s2c "last_scan_timestamp" ∈ schemaFieldNames ∧
     s2c "scan_start" ∉ schemaFieldNames) ∧
    ∀ d ∈ ds,
      s2c "scan_start" ∈ d.map Prod.fst ∧
      s2c "last_scan_timestamp" ∉ d.map Prod.fst ∧
      (∃ k ∈ d.map Prod.fst, k ∉ schemaFieldNames) ∧
      (decodeDoc d).last_scan_timestamp = MISSING := by
  refine ⟨⟨by decide, by decide⟩, ?_⟩
  intro d hd
  unfold iter_dicts at h
  cases hcur : current_bucket_scans files with
  | error e => rw [hcur] at h; exact absurd h (by simp)
  | ok cur =>
    rw [hcur] at h
    obtain ⟨b, m, rfl⟩ := iterDictsScans_mem h d hd
    refine ⟨?_, ?_, ?_, decode_merged b m⟩
    · rw [dictMerge_keys]
      decide
    · rw [dictMerge_keys]
      decide
    · refine ⟨s2c "scan_start", ?_, by decide⟩
      rw [dictMerge_keys]
      decide

/-- Witness for C3 on a one-file catalog with one data row. -/
theorem iter_dicts_schema_mismatch_witness :
    (iter_dicts [s2c "20250503-164831-b.tsv"] (fun _ => exTsvContent) = .ok [exDoc]) ∧
    (s2c "scan_start" ∈ exDoc.map Prod.fst ∧
     s2c "last_scan_timestamp" ∉ exDoc.map Prod.fst ∧
     (∃ k ∈ exDoc.map Prod.fst, k ∉ schemaFieldNames) ∧
     (decodeDoc exDoc).last_scan_timestamp = MISSING) :=
  ⟨rfl,
    (iter_dicts_schema_mismatch [s2c "20250503-164831-b.tsv"]
      (fun _ => exTsvContent) [exDoc] rfl).2 exDoc (List.mem_singleton_self _)⟩
